import Mathlib

/-!
Verification of the Notesaw incremental parser and block-structure tracker.

This file shallowly embeds the core of the repository:
* `src/parser.ts` — the current block-grammar parser (`parseNote`,
  `parseBlockBegin`, `parseInlineBlock`, the position-remapping `traverse`
  of `parseNativeMarkdown`);
* the earlier parser revision (the unnamed source file holding the previous
  `parseNote`, which still throws on unmatched braces at end of input);
* `src/transformer.ts` — the node-identity arrays (`map`, `mapFather`,
  `mapDepth`, `mapStartLine`, `mapEndLine`) and the id/line-map assignment
  pass of `transformNote`;
* `src/extension.ts` — `findLCA`, the array-maintenance step of
  `handleTextChange`, `updateMapLastNext`, and the `processQueue` FIFO
  discipline.

The external remark/rehype Markdown pipeline is not part of the repository;
where the source delegates a flat text run to it (`parseNativeMarkdown`),
the embedding records the exact call arguments (slice, leading-trim amount,
origin offset) as an opaque `markdown` leaf, and models the delegate's
null-on-empty behaviour.

Machine integers do not overflow in the modelled ranges (JS numbers act as
exact integers here), so positions and counters are `Nat`/`Int`.
-/

namespace Notesaw

/-- The open-brace and close-brace characters (written via their code points). -/
def lbrace : Char := Char.ofNat 123

/-- See `lbrace`. -/
def rbrace : Char := Char.ofNat 125

/-- A source position, as produced by `getPosition` in `src/parser.ts`:
1-based line, 1-based column, and the index in the normalized input. -/
structure Pos where
  line : Nat
  column : Nat
  offset : Nat
deriving Repr, DecidableEq

/-- `getPosition` from `src/parser.ts`: look the index up in the
`lines`/`columns` arrays built by the normalization pass. -/
def getPosition (lines columns : List Nat) (index : Nat) : Pos :=
  { line := lines.getD index 0, column := columns.getD index 0, offset := index }

/-- A node of the combined syntax tree built by the current `parseNote`.
A `markdown` leaf stands for the tree returned by the native-Markdown
delegate; it records the exact slice of the normalized input handed over,
the `trailSpaces` trim argument, the `offset` argument, and the CSS class
the caller installed on it (`none` when the caller left `data` as returned). -/
inductive NoteNode where
  | markdown (text : List Char) (trailSpaces : Nat) (offset : Nat) (className : Option String)
  | block (className : String) (style : Option Char) (isLink : Bool)
      (startPos endPos : Pos) (children : List NoteNode)
  | inlineBlock (className : String) (style : Option Char) (isLink : Bool)
      (startPos endPos : Pos) (children : List NoteNode)
  | root (className : String) (startPos endPos : Pos) (children : List NoteNode)
deriving Repr

/-- Model of `parseNativeMarkdown`'s observable behaviour at its call sites
inside `parseNote`.  The remark parse itself is external library code; the
source returns `null` exactly when the parsed AST has no children, which
happens exactly for whitespace-only slices.  The model returns `none` in
that case and otherwise an opaque `markdown` leaf recording the call
arguments. -/
def runNativeMarkdown (str : List Char) (trailSpaces : Nat) (offset : Nat) : Option NoteNode :=
  if str.all fun c => c = ' ' || c = '\n' then none
  else some (.markdown str trailSpaces offset none)

/-- Install a CSS class on a delegate result, as the callers in
`parseBlockBegin`/`parseInlineBlock` do via `parsedTitle.data = ...`. -/
def setMarkdownClass (n : NoteNode) (cls : String) : NoteNode :=
  match n with
  | .markdown t s o _ => .markdown t s o (some cls)
  | other => other

/-- The fixed abbreviation table `abbrMap` of `src/parser.ts`. -/
def abbrMap : List (String × String) :=
  [("thm", "theorem"), ("prop", "proposition"), ("cor", "corollary"),
   ("def", "definition"), ("warn", "warning"), ("vars", "variables"),
   ("var", "variables")]

/-- `if (label in abbrMap) label = abbrMap[label]` from the `ok` closures. -/
def resolveAbbr (label : String) : String :=
  match abbrMap.lookup label with
  | some full => full
  | none => label

/-- The character class of the label loop (`/[a-z]/.test`). -/
def isLowerAlpha (c : Char) : Bool := 'a' ≤ c && c ≤ 'z'

/-- `input.slice(a, b)` on the normalized character buffer. -/
def sliceStr (input : List Char) (a b : Nat) : List Char :=
  (input.take b).drop a

/-- Recursion of `scanWhile` over the remaining characters. -/
def scanAux (p : Char → Bool) : List Char → Nat → Nat
  | [], i => i
  | c :: rest, i => if p c then scanAux p rest (i + 1) else i

/-- Advance an index while the character satisfies `p` and the end of input
has not been reached (the shape of the label loop and the inline-content
loop). -/
def scanWhile (p : Char → Bool) (input : List Char) (i : Nat) : Nat :=
  scanAux p (input.drop i) i

/-- Recursion of `blockNameLoop` over the remaining characters. -/
def blockNameAux : List Char → Nat → Bool → Option Nat
  | [], _, _ => none
  | c :: rest, i, crossRow =>
    if c = lbrace then some i
    else if crossRow && c != ' ' then none
    else blockNameAux rest (i + 1) (crossRow || c = '\n')

/-- The scan inside `parseBlockName`: walk to the opening brace, failing when
a non-space character appears after a line break inside the name
(`crossRow`), or when the end of input is reached first.  Returns the index
of the opening brace on success. -/
def blockNameLoop (input : List Char) (i : Nat) (crossRow : Bool) : Option Nat :=
  blockNameAux (input.drop i) i crossRow

/-- The `ok` closure of `parseBlockBegin`: resolve the abbreviation, then
build the block node with its render-hint CSS class. -/
def blockOk (label : String) (style : Option Char) (isLink : Bool)
    (startPos endPos : Pos) (children : List NoteNode) : NoteNode :=
  let label := resolveAbbr label
  .block (label ++ "-block-mdast" ++ (if isLink then " block-link" else ""))
    style isLink startPos endPos children

/-- The `ok` closure of `parseInlineBlock`. -/
def inlineOk (label : String) (style : Option Char) (isLink : Bool)
    (startPos endPos : Pos) (children : List NoteNode) : NoteNode :=
  let label := resolveAbbr label
  .inlineBlock (label ++ "-inline-block-mdast" ++ (if isLink then " inline-block-link" else ""))
    style isLink startPos endPos children

/-- `parseBlockName` of the current `parseBlockBegin`, entered at index `i`
(the character right after the label or style). -/
def parseBlockName (input : List Char) (lines columns : List Nat) (beginIndex : Nat)
    (label : String) (style : Option Char) (isLink : Bool) (i : Nat) :
    Option (Nat × NoteNode) :=
  if input[i]? ≠ some lbrace ∧ input[i]? ≠ some ' ' then none
  else
    match blockNameLoop input i false with
    | none => none
    | some j =>
      if j + 1 ≠ input.length ∧ input[j + 1]? ≠ some '\n' then none
      else
        let parsedTitle := runNativeMarkdown (sliceStr input i j) 0 i
        let children :=
          match parsedTitle with
          | some t => [setMarkdownClass t "block-title-content"]
          | none => []
        some (j + 1,
          blockOk label style isLink (getPosition lines columns beginIndex)
            (getPosition lines columns (j + 1)) children)

/-- `parseBlockStyle` of the current `parseBlockBegin`: an optional `?`,
`!` or `*` modifier, anything else failing the match. -/
def parseBlockStyleK (input : List Char) (lines columns : List Nat) (beginIndex : Nat)
    (label : String) (isLink : Bool) (i : Nat) : Option (Nat × NoteNode) :=
  match input[i]? with
  | some '?' => parseBlockName input lines columns beginIndex label (some '?') isLink (i + 1)
  | some '!' => parseBlockName input lines columns beginIndex label (some '!') isLink (i + 1)
  | some '*' => parseBlockName input lines columns beginIndex label (some '*') isLink (i + 1)
  | _ => none

/-- `parseBlockLabel` of the current `parseBlockBegin`, entered at the index
of the expected `@`: scan the lowercase label, fail at end of input, then
continue with the name (after a space, brace or newline) or with the style. -/
def parseBlockLabelK (input : List Char) (lines columns : List Nat) (beginIndex : Nat)
    (isLink : Bool) (i : Nat) : Option (Nat × NoteNode) :=
  if input[i]? ≠ some '@' then none
  else
    if scanWhile isLowerAlpha input (i + 1) = input.length then none
    else if input[scanWhile isLowerAlpha input (i + 1)]? = some ' ' ∨
        input[scanWhile isLowerAlpha input (i + 1)]? = some lbrace ∨
        input[scanWhile isLowerAlpha input (i + 1)]? = some '\n' then
      parseBlockName input lines columns beginIndex
        (sliceStr input (i + 1) (scanWhile isLowerAlpha input (i + 1))).asString none isLink
        (scanWhile isLowerAlpha input (i + 1))
    else
      parseBlockStyleK input lines columns beginIndex
        (sliceStr input (i + 1) (scanWhile isLowerAlpha input (i + 1))).asString isLink
        (scanWhile isLowerAlpha input (i + 1))

/-- `parseBlockBegin` of the current parser (`src/parser.ts`):
`checkPosition` → `parseLinkSymbol` → `parseBlockLabel` →
(`parseBlockStyle`) → `parseBlockName`. -/
def parseBlockBegin (input : List Char) (lines columns : List Nat)
    (indentLevel : Nat) (beginIndex : Nat) : Option (Nat × NoteNode) :=
  if columns.getD beginIndex 0 ≠ indentLevel * 4 + 1 then none
  else if input[beginIndex]? = some '+' then
    parseBlockLabelK input lines columns beginIndex true (beginIndex + 1)
  else parseBlockLabelK input lines columns beginIndex false beginIndex

/-- `parseBlockContent` of `parseInlineBlock`: scan the rest of the line,
hand it to the delegate, then step past the newline (`index++`). -/
def parseInlineContent (input : List Char) (lines columns : List Nat) (beginIndex : Nat)
    (label : String) (style : Option Char) (isLink : Bool) (i : Nat) : Nat × NoteNode :=
  let j := scanWhile (fun c => c != '\n') input i
  let parsedContent := runNativeMarkdown (sliceStr input i j) 0 i
  let children :=
    match parsedContent with
    | some t => [setMarkdownClass t "inline-block-content"]
    | none => []
  (j + 1,
    inlineOk label style isLink (getPosition lines columns beginIndex)
      (getPosition lines columns (j + 1)) children)

/-- `parseBlockStyle` of the current `parseInlineBlock`. -/
def parseInlineStyleK (input : List Char) (lines columns : List Nat) (beginIndex : Nat)
    (label : String) (isLink : Bool) (i : Nat) : Option (Nat × NoteNode) :=
  match input[i]? with
  | some '?' => some (parseInlineContent input lines columns beginIndex label (some '?') isLink (i + 1))
  | some '!' => some (parseInlineContent input lines columns beginIndex label (some '!') isLink (i + 1))
  | some '*' => some (parseInlineContent input lines columns beginIndex label (some '*') isLink (i + 1))
  | _ => none

/-- `parseBlockLabel` of the current `parseInlineBlock` (no end-of-input
check after the label; at end of input the style step fails instead). -/
def parseInlineLabelK (input : List Char) (lines columns : List Nat) (beginIndex : Nat)
    (isLink : Bool) (i : Nat) : Option (Nat × NoteNode) :=
  if input[i]? ≠ some '@' then none
  else
    if scanWhile isLowerAlpha input (i + 1) < input.length ∧
        (input[scanWhile isLowerAlpha input (i + 1)]? = some ' ' ∨
          input[scanWhile isLowerAlpha input (i + 1)]? = some lbrace ∨
          input[scanWhile isLowerAlpha input (i + 1)]? = some '\n') then
      some (parseInlineContent input lines columns beginIndex
        (sliceStr input (i + 1) (scanWhile isLowerAlpha input (i + 1))).asString none isLink
        (scanWhile isLowerAlpha input (i + 1)))
    else
      parseInlineStyleK input lines columns beginIndex
        (sliceStr input (i + 1) (scanWhile isLowerAlpha input (i + 1))).asString isLink
        (scanWhile isLowerAlpha input (i + 1))

/-- `parseInlineBlock` of the current parser (`src/parser.ts`). -/
def parseInlineBlock (input : List Char) (lines columns : List Nat)
    (indentLevel : Nat) (beginIndex : Nat) : Option (Nat × NoteNode) :=
  if columns.getD beginIndex 0 ≠ indentLevel * 4 + 1 then none
  else if input[beginIndex]? = some '+' then
    parseInlineLabelK input lines columns beginIndex true (beginIndex + 1)
  else parseInlineLabelK input lines columns beginIndex false beginIndex

/-- The normalization preamble of the current `parseNote`: fold CRLF/CR/LF to
a single newline, expand tabs to four spaces, and record a (line, column)
pair per normalized character.  Returns (input, lines, columns); the final
extra `lines.push(line); columns.push(column)` of the source is the base
case. -/
def normalizeAux : List Char → Nat → Nat → List Char × List Nat × List Nat
  | [], line, col => ([], [line], [col])
  | '\r' :: '\n' :: rest, line, col =>
    let (i, l, co) := normalizeAux rest (line + 1) 1
    ('\n' :: i, line :: l, col :: co)
  | '\r' :: rest, line, col =>
    let (i, l, co) := normalizeAux rest (line + 1) 1
    ('\n' :: i, line :: l, col :: co)
  | '\n' :: rest, line, col =>
    let (i, l, co) := normalizeAux rest (line + 1) 1
    ('\n' :: i, line :: l, col :: co)
  | '\t' :: rest, line, col =>
    let (i, l, co) := normalizeAux rest line (col + 4)
    (' ' :: ' ' :: ' ' :: ' ' :: i, line :: line :: line :: line :: l,
      col :: (col + 1) :: (col + 2) :: (col + 3) :: co)
  | c :: rest, line, col =>
    let (i, l, co) := normalizeAux rest line (col + 1)
    (c :: i, line :: l, col :: co)

/-- Normalization entry point (line and column both start at 1). -/
def normalizeInput (text : List Char) : List Char × List Nat × List Nat :=
  normalizeAux text 1 1

/-- One entry of the current parser's `blockStack`: the node under
construction (root or block) together with `current`, the start index of the
pending text run. -/
structure StackEntry where
  isRoot : Bool
  className : String
  style : Option Char
  isLink : Bool
  startPos : Pos
  openEnd : Pos
  children : List NoteNode
  current : Nat
deriving Repr

/-- The main scan loop of the current `parseNote`.  The stack is kept as
(top, rest) so that it is never empty; `blockStack[0]` is the last entry of
`top :: rest`.  Fuel bounds the iteration count; every iteration advances
`index` by at least one, so `input.length + 1` fuel is never exhausted. -/
def parseLoop (input : List Char) (lines columns : List Nat) :
    Nat → Nat → Nat → StackEntry → List StackEntry → StackEntry × List StackEntry × Nat
  | 0, _, lvl, top, rest => (top, rest, lvl)
  | fuel + 1, index, lvl, top, rest =>
    if h : index < input.length then
      let c := input.get ⟨index, h⟩
      let mtch :=
        if c = '@' ∨ c = '+' then
          match parseBlockBegin input lines columns lvl index with
          | some r => some r
          | none => parseInlineBlock input lines columns lvl index
        else none
      match mtch with
      | some (endIndex, selfNode) =>
        let ast := runNativeMarkdown (sliceStr input top.current index) (lvl * 4) top.current
        let top :=
          match ast with
          | some a => { top with children := top.children ++ [a] }
          | none => top
        match selfNode with
        | .block cls st lk sp ep kids =>
          let newEntry : StackEntry :=
            { isRoot := false, className := cls, style := st, isLink := lk,
              startPos := sp, openEnd := ep, children := kids, current := endIndex }
          parseLoop input lines columns fuel endIndex (lvl + 1) newEntry (top :: rest)
        | _ =>
          let top := { top with children := top.children ++ [selfNode], current := endIndex }
          parseLoop input lines columns fuel endIndex lvl top rest
      | none =>
        if c = rbrace ∧ (columns.getD index 0 : Int) = ((lvl : Int) - 1) * 4 + 1 then
          match rest with
          | parent :: rest' =>
            let ast := runNativeMarkdown (sliceStr input top.current index) (lvl * 4) top.current
            let children :=
              match ast with
              | some a => top.children ++ [a]
              | none => top.children
            let blockNode : NoteNode :=
              .block top.className top.style top.isLink top.startPos
                (getPosition lines columns (index + 1)) children
            let parent :=
              { parent with children := parent.children ++ [blockNode], current := index + 1 }
            parseLoop input lines columns fuel (index + 1) (lvl - 1) parent rest'
          | [] => parseLoop input lines columns fuel (index + 1) lvl top rest
        else parseLoop input lines columns fuel (index + 1) lvl top rest
    else (top, rest, lvl)

/-- Turn a stack entry into its node.  A still-open block keeps the end
position assigned by `ok` at open time (the source never updates it when the
block is implicitly closed at end of input); the root's end is set to the
input length by `parseNote` itself. -/
def buildEntry (lines columns : List Nat) (inputLen : Nat) (e : StackEntry) : NoteNode :=
  if e.isRoot then .root e.className e.startPos (getPosition lines columns inputLen) e.children
  else .block e.className e.style e.isLink e.startPos e.openEnd e.children

/-- Collapse the remaining stack at end of input.  In the source, each open
block was already linked into its parent's `children` at open time and is
the parent's last child; the functional embedding re-creates that link here. -/
def collapse (lines columns : List Nat) (inputLen : Nat) :
    StackEntry → List StackEntry → NoteNode
  | top, [] => buildEntry lines columns inputLen top
  | top, parent :: rest =>
    let node := buildEntry lines columns inputLen top
    collapse lines columns inputLen
      { parent with children := parent.children ++ [node] } rest

/-- The current `parseNote` (`src/parser.ts`): normalize, scan, and at end of
input attach the trailing run to the innermost open entry, then return
`blockStack[0].node` with its end position set to the input length. -/
def parseNoteCur (text : List Char) : NoteNode :=
  let (input, lines, columns) := normalizeInput text
  let rootEntry : StackEntry :=
    { isRoot := true, className := "markdown-body", style := none, isLink := false,
      startPos := getPosition lines columns 0, openEnd := getPosition lines columns 0,
      children := [], current := 0 }
  let (top, rest, lvl) := parseLoop input lines columns (input.length + 1) 0 0 rootEntry []
  let ast := runNativeMarkdown (sliceStr input top.current input.length) (lvl * 4) top.current
  let top :=
    match ast with
    | some a => { top with children := top.children ++ [a] }
    | none => top
  collapse lines columns input.length top rest

/-! ### The earlier parser revision

The unnamed source file holding the previous `parseNote` differs from the
current one in: no tab expansion in the normalization, per-label generated
block-begin parsers tried in a fixed order, a block-separator construct, a
`state` (body/extend) field with `addHproperties` class appending, no
brace-at-line-end check in `parseDefName`, and — the point of claim C5 — a
thrown `Curly braces are not matched.` error when blocks remain open at end
of input. -/

/-- Normalization of the earlier revision: newline folding only, no tab
expansion. -/
def normalizeAuxOld : List Char → Nat → Nat → List Char × List Nat × List Nat
  | [], line, col => ([], [line], [col])
  | '\r' :: '\n' :: rest, line, col =>
    let (i, l, co) := normalizeAuxOld rest (line + 1) 1
    ('\n' :: i, line :: l, col :: co)
  | '\r' :: rest, line, col =>
    let (i, l, co) := normalizeAuxOld rest (line + 1) 1
    ('\n' :: i, line :: l, col :: co)
  | '\n' :: rest, line, col =>
    let (i, l, co) := normalizeAuxOld rest (line + 1) 1
    ('\n' :: i, line :: l, col :: co)
  | c :: rest, line, col =>
    let (i, l, co) := normalizeAuxOld rest line (col + 1)
    (c :: i, line :: l, col :: co)

/-- See `normalizeAuxOld`. -/
def normalizeInputOld (text : List Char) : List Char × List Nat × List Nat :=
  normalizeAuxOld text 1 1

/-- A node of the earlier revision's tree.  `typeName` is the `type` string
(`"def-block"`, `"block-separator"`, ...); `className` for markdown leaves is
optional because the old `parseNativeMarkdown` returns the AST with no
`data`, classes being appended later through `addHproperties`. -/
inductive OldNode where
  | markdown (text : List Char) (trailSpaces offset : Nat) (className : Option String)
  | blockNode (typeName className : String) (style : Option Char) (isLink : Bool)
      (state : String) (startPos endPos : Pos) (children : List OldNode)
  | separator
  | rootNode (className : String) (startPos endPos : Pos) (children : List OldNode)
deriving Repr

/-- Old delegate model, as `runNativeMarkdown` but returning an `OldNode`. -/
def runNativeMarkdownOld (str : List Char) (trailSpaces : Nat) (offset : Nat) : Option OldNode :=
  if str.all fun c => c = ' ' || c = '\n' then none
  else some (.markdown str trailSpaces offset none)

/-- `addHproperties` of the earlier revision: install the class if the node
has none, else append the class after a space. -/
def addHproperties (n : OldNode) (cls : String) : OldNode :=
  match n with
  | .markdown t s o none => .markdown t s o (some cls)
  | .markdown t s o (some c) => .markdown t s o (some (c ++ " " ++ cls))
  | .blockNode ty c st lk sta sp ep ch => .blockNode ty (c ++ " " ++ cls) st lk sta sp ep ch
  | .rootNode c sp ep ch => .rootNode (c ++ " " ++ cls) sp ep ch
  | .separator => .separator

/-- Character-by-character comparison in `parseDefIdentifier`. -/
def matchesStrAt (input : List Char) (i : Nat) : List Char → Bool
  | [] => true
  | c :: cs => input[i]? = some c && matchesStrAt input (i + 1) cs

/-- Recursion of `parseDefNameLoopOld` over the remaining characters. -/
def defNameAuxOld : List Char → Nat → Option Nat
  | [], _ => none
  | c :: rest, i =>
    if c = lbrace then some i
    else if c = '\n' then none
    else defNameAuxOld rest (i + 1)

/-- The name loop of the old `parseDefName`: walk to the opening brace, fail
on a newline or end of input. -/
def parseDefNameLoopOld (input : List Char) (i : Nat) : Option Nat :=
  defNameAuxOld (input.drop i) i

/-- The old `parseBlockBegin` generated by `blockBeginParserGenerator` for
the pair (abbr, full).  Note the old revision has no check that the opening
brace ends its line. -/
def parseBlockBeginOld (abbr full : String) (input : List Char) (lines columns : List Nat)
    (indentLevel : Nat) (beginIndex : Nat) : Option (Nat × OldNode) :=
  if columns.getD beginIndex 0 ≠ indentLevel * 4 + 1 then none
  else
    let isLink := input[beginIndex]? = some '+'
    let i0 := if isLink then beginIndex + 1 else beginIndex
    let idStr := '@' :: abbr.data
    if ¬ matchesStrAt input i0 idStr then none
    else
      let i1 := i0 + idStr.length
      let defName (style : Option Char) (i : Nat) : Option (Nat × OldNode) :=
        if input[i]? ≠ some lbrace ∧ input[i]? ≠ some ' ' then none
        else
          match parseDefNameLoopOld input i with
          | none => none
          | some j =>
            let parsedTitle := runNativeMarkdownOld (sliceStr input i j) 0 i
            let children :=
              match parsedTitle with
              | some t => [addHproperties t "block-title-mdast"]
              | none => []
            some (j + 1,
              .blockNode (abbr ++ "-block")
                (full ++ "-block-mdast" ++ (if isLink then " block-link" else ""))
                style isLink "body" (getPosition lines columns beginIndex)
                (getPosition lines columns (j + 1)) children)
      if input[i1]? = some ' ' ∨ input[i1]? = some lbrace ∨ input[i1]? = some '\n' then
        defName none i1
      else
        match input[i1]? with
        | some '?' => defName (some '?') (i1 + 1)
        | some '!' => defName (some '!') (i1 + 1)
        | some '*' => defName (some '*') (i1 + 1)
        | _ => none

/-- `checkPreviousChars` of the old separator parser: every character from
the previous newline (exclusive) to `beginIndex` (exclusive) must be a
space.  The argument is the number of characters before `beginIndex` still
to check. -/
def prevCharsBlank (input : List Char) : Nat → Bool
  | 0 => true
  | k + 1 =>
    match input[k]? with
    | some c => if c = '\n' then true else if c = ' ' then prevCharsBlank input k else false
    | none => false

/-- The old block-separator construct: three or more equal signs, then only
spaces to the line end, with only blanks before it on its line.  Returns the
end index (the separator does not consume its newline). -/
def parseSeparatorOld (input : List Char) (columns : List Nat)
    (indentLevel : Nat) (beginIndex : Nat) : Option (Nat × OldNode) :=
  if columns.getD beginIndex 0 ≠ indentLevel * 4 + 1 then none
  else
    let j := scanWhile (fun c => c = '=') input beginIndex
    if j - beginIndex < 3 then none
    else
      let k := scanWhile (fun c => c = ' ') input j
      if k < input.length ∧ input[k]? ≠ some '\n' then none
      else if prevCharsBlank input beginIndex then some (k, .separator)
      else none

/-- The fixed order in which the old main loop tries the generated
block-begin parsers. -/
def oldBlockKinds : List (String × String) :=
  [("def", "definition"), ("axiom", "axiom"), ("thm", "theorem"), ("law", "law"),
   ("proof", "proof"), ("lemma", "lemma"), ("prop", "proposition"), ("cor", "corollary"),
   ("note", "note"), ("remark", "remark"), ("example", "example"), ("problem", "problem"),
   ("solution", "solution"), ("warn", "warning"), ("vars", "variables"), ("block", "custom")]

/-- One entry of the old parser's block stack. -/
structure OldStackEntry where
  isRoot : Bool
  typeName : String
  className : String
  style : Option Char
  isLink : Bool
  state : String
  startPos : Pos
  openEnd : Pos
  children : List OldNode
  current : Nat
deriving Repr

/-- The old main scan loop.  The two in-loop `throw` statements of the source
(`!blockStack.length`, `!lastBlock.node`) are unreachable — the stack starts
with one entry and pops only when it holds more than one — and the stack is
kept nonempty as (top, rest) here; the reachable throw is the unmatched-brace
check after the loop, handled in `parseNoteOld`. -/
def parseLoopOld (input : List Char) (lines columns : List Nat) :
    Nat → Nat → Nat → OldStackEntry → List OldStackEntry →
    OldStackEntry × List OldStackEntry × Nat
  | 0, _, lvl, top, rest => (top, rest, lvl)
  | fuel + 1, index, lvl, top, rest =>
    if h : index < input.length then
      let c := input.get ⟨index, h⟩
      let mtch :=
        if c = '@' ∨ c = '+' then
          oldBlockKinds.findSome? fun p =>
            parseBlockBeginOld p.1 p.2 input lines columns lvl index
        else if c = '=' then parseSeparatorOld input columns lvl index
        else none
      match mtch with
      | some (endIndex, selfNode) =>
        let ast := runNativeMarkdownOld (sliceStr input top.current index) (lvl * 4) top.current
        let top :=
          match ast with
          | some a =>
            if top.isRoot then { top with children := top.children ++ [a] }
            else
              { top with children :=
                  top.children ++ [addHproperties a ("block-" ++ top.state ++ "-mdast")] }
          | none => top
        match selfNode with
        | .blockNode ty cls st lk sta sp ep kids =>
          let cls := if top.isRoot then cls else cls ++ " block-" ++ top.state ++ "-mdast"
          let newEntry : OldStackEntry :=
            { isRoot := false, typeName := ty, className := cls, style := st, isLink := lk,
              state := sta, startPos := sp, openEnd := ep, children := kids, current := endIndex }
          parseLoopOld input lines columns fuel endIndex (lvl + 1) newEntry (top :: rest)
        | .separator =>
          let top := if top.state = "body" then { top with state := "extend" } else top
          parseLoopOld input lines columns fuel endIndex lvl
            { top with current := endIndex } rest
        | _ => parseLoopOld input lines columns fuel endIndex lvl
            { top with current := endIndex } rest
      | none =>
        if c = rbrace ∧ (columns.getD index 0 : Int) = ((lvl : Int) - 1) * 4 + 1 then
          match rest with
          | parent :: rest' =>
            let ast := runNativeMarkdownOld (sliceStr input top.current index) (lvl * 4) top.current
            let children :=
              match ast with
              | some a => top.children ++ [addHproperties a ("block-" ++ top.state ++ "-mdast")]
              | none => top.children
            let blockNode : OldNode :=
              .blockNode top.typeName top.className top.style top.isLink top.state
                top.startPos (getPosition lines columns (index + 1)) children
            let parent :=
              { parent with children := parent.children ++ [blockNode], current := index + 1 }
            parseLoopOld input lines columns fuel (index + 1) (lvl - 1) parent rest'
          | [] => parseLoopOld input lines columns fuel (index + 1) lvl top rest
        else parseLoopOld input lines columns fuel (index + 1) lvl top rest
    else (top, rest, lvl)

/-- The earlier revision's `parseNote`: throws the unmatched-brace error when
blocks remain open at end of input; otherwise attaches the trailing run to
the root and returns it. -/
def parseNoteOld (text : List Char) : Except String OldNode :=
  let (input, lines, columns) := normalizeInputOld text
  let rootEntry : OldStackEntry :=
    { isRoot := true, typeName := "root", className := "markdown-body", style := none,
      isLink := false, state := "body", startPos := getPosition lines columns 0,
      openEnd := getPosition lines columns 0, children := [], current := 0 }
  let (top, rest, lvl) := parseLoopOld input lines columns (input.length + 1) 0 0 rootEntry []
  if ¬ rest.isEmpty then .error "Curly braces are not matched."
  else
    let ast := runNativeMarkdownOld (sliceStr input top.current input.length) (lvl * 4) top.current
    let top :=
      match ast with
      | some a => { top with children := top.children ++ [a] }
      | none => top
    .ok (.rootNode top.className top.startPos (getPosition lines columns input.length)
      top.children)

/-! ### The incremental re-parse controller (`src/extension.ts`)

`findLCA`, `updateMapLastNext`, the `last`/`next` boundary resolution and
the array-maintenance step of `handleTextChange`. -/

/-- One lifting loop of `findLCA`: while the depth of `x` exceeds the depth
of `y`, replace `x` by its parent.  The source loop terminates because
parent pointers strictly decrease depth in a well-formed tree; the fuel
bounds the iteration count and is chosen large enough by `findLCA`. -/
def lcaLift (mapDepth : List Int) (mapFather : List Nat) : Nat → Nat → Nat → Nat
  | 0, x, _ => x
  | fuel + 1, x, y =>
    if mapDepth.getD x 0 > mapDepth.getD y 0 then
      lcaLift mapDepth mapFather fuel (mapFather.getD x 0) y
    else x

/-- The joint walk of `findLCA`: while the parents differ, lift both. -/
def lcaWalk (mapDepth : List Int) (mapFather : List Nat) : Nat → Nat → Nat → Nat × Nat
  | 0, x, y => (x, y)
  | fuel + 1, x, y =>
    if mapFather.getD x 0 ≠ mapFather.getD y 0 then
      lcaWalk mapDepth mapFather fuel (mapFather.getD x 0) (mapFather.getD y 0)
    else (x, y)

/-- `findLCA` of `handleTextChange`: raise the deeper node to equal depth,
handle the equal case, else walk both up until the parents agree.  Returns
`[x, y, mapFather[x]]`. -/
def findLCA (mapDepth : List Int) (mapFather : List Nat) (x y : Nat) : Nat × Nat × Nat :=
  let fuel := mapDepth.length + mapFather.length + 1
  let x1 := lcaLift mapDepth mapFather fuel x y
  let y1 := lcaLift mapDepth mapFather fuel y x1
  if x1 = y1 then (x1, x1, mapFather.getD x1 0)
  else
    let (x2, y2) := lcaWalk mapDepth mapFather fuel x1 y1
    (x2, y2, mapFather.getD x2 0)

/-- JavaScript falsiness of a `map` entry (`undefined` or the id 0). -/
def isFalsy : Option Nat → Bool
  | none => true
  | some n => n = 0

/-- The forward pass of `updateMapLastNext` (`if (!mapLast[i]) mapLast[i] =
mapLast[i-1]` for i from 1 up), threaded with the running previous value. -/
def forwardFillAux (prev : Option Nat) : List (Option Nat) → List (Option Nat)
  | [] => []
  | v :: rest =>
    let v' := if isFalsy v then prev else v
    v' :: forwardFillAux v' rest

/-- `mapLast` as computed by `updateMapLastNext`: entry 0 is untouched. -/
def updateMapLast (map : List (Option Nat)) : List (Option Nat) :=
  match map with
  | [] => []
  | v :: rest => v :: forwardFillAux v rest

/-- `mapNext` as computed by `updateMapLastNext`: the mirror-image backward
pass (i from `map.length - 2` down to 0). -/
def updateMapNext (map : List (Option Nat)) : List (Option Nat) :=
  (updateMapLast map.reverse).reverse

/-- `last = mapLast[startLine] !== undefined ? mapLast[startLine] :
mapNext[startLine]` from `handleTextChange`. -/
def resolveLast (mapLast mapNext : List (Option Nat)) (startLine : Nat) : Option Nat :=
  match mapLast.getD startLine none with
  | some v => some v
  | none => mapNext.getD startLine none

/-- `next = mapNext[endLine] !== undefined ? mapNext[endLine] :
mapLast[endLine]` from `handleTextChange`. -/
def resolveNext (mapLast mapNext : List (Option Nat)) (endLine : Nat) : Option Nat :=
  match mapNext.getD endLine none with
  | some v => some v
  | none => mapLast.getD endLine none

/-- The tracked-element shift loop of `handleTextChange`
(`for i = 1..counter: if (arr[i] > yLine) arr[i] += deltaLength`), rendered
elementwise — each iteration reads and writes only index `i`. -/
def shiftArr (yLine delta : Int) (counter : Nat) : Nat → List Int → List Int
  | _, [] => []
  | i, v :: rest =>
    (if 1 ≤ i ∧ i ≤ counter ∧ v > yLine then v + delta else v) ::
      shiftArr yLine delta counter (i + 1) rest

/-- Write `map[i] = v`, extending the array with holes (as JavaScript does)
when `i` is beyond the current length. -/
def setExtend (m : List (Option Nat)) (i : Nat) (v : Option Nat) : List (Option Nat) :=
  if i < m.length then m.set i v
  else m ++ List.replicate (i - m.length) none ++ [v]

/-- Signed read/write on the line map; negative indices never occur on the
executed paths but JavaScript would read `undefined` there. -/
def getI (m : List (Option Nat)) (i : Int) : Option Nat :=
  if i < 0 then none else m.getD i.toNat none

/-- See `getI`; a write at a negative index is dropped (unreachable). -/
def setI (m : List (Option Nat)) (i : Int) (v : Option Nat) : List (Option Nat) :=
  if i < 0 then m else setExtend m i.toNat v

/-- `extendMapArray` of `src/transformer.ts`: set the length to
`totalLines + 1`, truncating or extending with holes. -/
def extendMapArray (m : List (Option Nat)) (totalLines : Nat) : List (Option Nat) :=
  m.take (totalLines + 1) ++ List.replicate (totalLines + 1 - m.length) none

/-- The descending copy loop of `handleTextChange`
(`for i = totalLines; i > yLine; i--: map[i + delta] = map[i]`). -/
def copyLoopDesc (yLine delta : Int) : Nat → Int → List (Option Nat) → List (Option Nat)
  | 0, _, m => m
  | fuel + 1, i, m =>
    if i > yLine then
      copyLoopDesc yLine delta fuel (i - 1) (setI m (i + delta) (getI m i))
    else m

/-- The ascending copy loop of `handleTextChange`
(`for i = yLine + 1; i <= totalLines; i++: map[i + delta] = map[i]`). -/
def copyLoopAsc (yLine delta : Int) (totalLines : Int) : Nat → Int → List (Option Nat) → List (Option Nat)
  | 0, _, m => m
  | fuel + 1, i, m =>
    if i ≤ totalLines then
      copyLoopAsc yLine delta totalLines fuel (i + 1) (setI m (i + delta) (getI m i))
    else m

/-- The clear loop (`for i = xLine; i <= newYLine; i++: map[i] = undefined`). -/
def clearLoop (newYLine : Int) : Nat → Int → List (Option Nat) → List (Option Nat)
  | 0, _, m => m
  | fuel + 1, i, m =>
    if i ≤ newYLine then clearLoop newYLine fuel (i + 1) (setI m i none)
    else m

/-- The five process-wide node-identity arrays of `src/transformer.ts`,
plus the id counter. -/
structure TrackArrays where
  counter : Nat
  map : List (Option Nat)
  mapFather : List Nat
  mapDepth : List Int
  mapStartLine : List Int
  mapEndLine : List Int
deriving Repr

/-- The array-maintenance step of `handleTextChange` (the block between the
LCA computation and the `noteProcess` call): shift tracked line ranges after
`yLine` by `deltaLength`, resize the line map, shift its tail, and clear the
recomputed region. -/
def handleChangeMaintain (t : TrackArrays) (yLine deltaLength : Int)
    (xLine newYLine : Int) (totalLines editorTotalLines : Nat) : TrackArrays :=
  let startL := shiftArr yLine deltaLength t.counter 0 t.mapStartLine
  let endL := shiftArr yLine deltaLength t.counter 0 t.mapEndLine
  let m := extendMapArray t.map editorTotalLines
  let m :=
    if deltaLength > 0 then copyLoopDesc yLine deltaLength (totalLines + 1) totalLines m
    else copyLoopAsc yLine deltaLength totalLines (totalLines + 1) (yLine + 1) m
  let m := clearLoop newYLine (newYLine - xLine + 1).toNat xLine m
  { t with map := m, mapStartLine := startL, mapEndLine := endL }

/-! ### The node-identity assignment pass (`src/transformer.ts`)

The second `visit` of `transformNote`: assign ids, parent pointers, depths
and line ranges to eligible rendered elements, and fill the line→id map.
The first `visit` (which rewrites `-block-mdast` classes into rendered
block containers, icons and labels) only rewrites classes and synthesizes
icon children; the claims below are settled on trees whose classes are not
touched by it. -/

/-- A rendered (hast) node as seen by the id-assignment pass: tag name,
`properties.class`, `properties.id`, the start/end line of its position
(`none` when the node has no position), and children.  Non-element nodes in
rendered trees (text nodes) are childless. -/
inductive Hast where
  | element (tagName : String) (className : Option String) (idProp : Option Nat)
      (pos : Option (Nat × Nat)) (children : List Hast)
  | nonElement
deriving Repr

/-- `String.prototype.includes`. -/
def strIncludes (s sub : String) : Bool := decide (sub.data <:+: s.data)

/-- The class conditions of `isValidElement` (the type/position conditions
are checked at the use sites). -/
def isValidClass (labelRoot : Bool) (cls : Option String) : Bool :=
  if ¬ labelRoot ∧ cls = some "markdown-body" then false
  else
    match cls with
    | some c => ¬ strIncludes c "block-body"
    | none => true

/-- `continueTransform`: recursion into children is suppressed for opaque
leaves (list containers, block quotes, tables, paragraphs, block containers
and boxes). -/
def continueTransform (tagName : String) (cls : Option String) : Bool :=
  if tagName = "blockquote" ∨ tagName = "ul" ∨ tagName = "ol" ∨ tagName = "p" ∨
      tagName = "table" then false
  else
    match cls with
    | some c => ¬ (strIncludes c "block-container" ∨ strIncludes c "box")
    | none => true

/-- Is this child eligible for id pre-assignment
(`child.type === "element" && child.position && isValidElement(child)`)? -/
def eligibleChild (labelRoot : Bool) : Hast → Bool
  | .element _ cls _ (some _) _ => isValidClass labelRoot cls
  | _ => false

/-- The line range of an eligible child, shifted by `baseLine`. -/
def childRange (baseLine : Nat) : Hast → Nat × Nat
  | .element _ _ _ (some (s, e)) _ => (s + baseLine, e + baseLine)
  | _ => (0, 0)

/-- Fuel-indexed recursion of `fillMapLt` (`n` = number of cells left). -/
def fillMapN (id : Nat) : Nat → Nat → List (Option Nat) → List (Option Nat)
  | 0, _, m => m
  | n + 1, a, m => fillMapN id n (a + 1) (setExtend m a (some id))

/-- `for (i = a; i < b; i++) map[i] = id`. -/
def fillMapLt (id : Nat) (a b : Nat) (m : List (Option Nat)) : List (Option Nat) :=
  fillMapN id (b - a) a m

/-- The child loop of the visitor: pre-assign an id to every eligible child
(depth+1, parent `id`, the child's shifted line range), fill the gap before
the *first* eligible child with the parent's id, and track `currentLine`
past each eligible child's end.  Returns the final state, the final
`currentLine`, and the id assigned to each child (`none` for ineligible
ones). -/
def childIds (labelRoot : Bool) (baseLine : Nat) (id : Nat) (depth : Int) :
    List Hast → TrackArrays → Nat → Bool → TrackArrays × Nat × List (Option Nat)
  | [], st, currentLine, _ => (st, currentLine, [])
  | child :: rest, st, currentLine, firstChild =>
    if eligibleChild labelRoot child then
      let (cs, ce) := childRange baseLine child
      let newId := st.counter + 1
      let st :=
        { st with
          counter := newId
          mapDepth := st.mapDepth ++ [depth + 1]
          mapFather := st.mapFather ++ [id]
          mapStartLine := st.mapStartLine ++ [(cs : Int)]
          mapEndLine := st.mapEndLine ++ [(ce : Int)] }
      let st :=
        if firstChild then { st with map := fillMapLt id currentLine cs st.map } else st
      let (st', cl', ids) := childIds labelRoot baseLine id depth rest st (ce + 1) false
      (st', cl', some newId :: ids)
    else
      let (st', cl', ids) := childIds labelRoot baseLine id depth rest st currentLine firstChild
      (st', cl', none :: ids)

mutual

/-- Number of nodes of a rendered tree (used only to pick a fuel bound). -/
def hastSize : Hast → Nat
  | .nonElement => 1
  | .element _ _ _ _ children => 1 + hastSizeList children

/-- See `hastSize`. -/
def hastSizeList : List Hast → Nat
  | [] => 1
  | c :: cs => 1 + hastSize c + hastSizeList cs

end

/-- The visitor of `transformNote`'s id-assignment `visit`, applied in
pre-order to a list of sibling nodes; `ids` carries, per sibling, the id the
parent's child loop wrote into `child.properties.id` before the child was
visited.  `fatherId` stays the `transformNote` parameter throughout the
visit — the source's `mapFather.push(fatherId)` closes over the function
argument, not over the current ancestor.  Descending into children and
advancing to the next sibling both decrement the fuel, which `transformNote`
picks to dominate the tree size, so it is never exhausted. -/
def visitList (labelRoot : Bool) (baseLine fatherId : Nat) :
    Nat → TrackArrays → List Hast → List (Option Nat) → TrackArrays × List Hast
  | 0, st, l, _ => (st, l)
  | _ + 1, st, [], _ => (st, [])
  | fuel + 1, st, node :: rest, idsIn =>
    let presetId := idsIn.headD none
    let (st1, node') :=
      match node with
      | .nonElement => (st, Hast.nonElement)
      | .element tag cls idp pos children =>
        let idp := match presetId with | some n => some n | none => idp
        match pos with
        | none => (st, .element tag cls idp pos children)
        | some (sl, el) =>
          if ¬ isValidClass labelRoot cls then
            let (st', children') := visitList labelRoot baseLine fatherId fuel st children []
            (st', .element tag cls idp pos children')
          else
            let startLine := sl + baseLine
            let endLine := el + baseLine
            let (st, idp') :=
              match idp with
              | none =>
                let newId := st.counter + 1
                ({ st with
                    counter := newId
                    mapDepth := st.mapDepth ++ [st.mapDepth.getD fatherId 0 + 1]
                    mapFather := st.mapFather ++ [fatherId]
                    mapStartLine := st.mapStartLine ++ [(startLine : Int)]
                    mapEndLine := st.mapEndLine ++ [(endLine : Int)] }, some newId)
              | some 0 =>
                let newId := st.counter + 1
                ({ st with
                    counter := newId
                    mapDepth := st.mapDepth ++ [st.mapDepth.getD fatherId 0 + 1]
                    mapFather := st.mapFather ++ [fatherId]
                    mapStartLine := st.mapStartLine ++ [(startLine : Int)]
                    mapEndLine := st.mapEndLine ++ [(endLine : Int)] }, some newId)
              | some n => (st, some n)
            let id := idp'.getD 0
            let depth := st.mapDepth.getD id 0
            let continueTraversal := continueTransform tag cls
            let (st, currentLine, ids) :=
              if continueTraversal then
                childIds labelRoot baseLine id depth children st startLine true
              else (st, startLine, List.replicate children.length none)
            let st := { st with map := fillMapLt id currentLine (endLine + 1) st.map }
            if continueTraversal then
              let (st', children') := visitList labelRoot baseLine fatherId fuel st children ids
              (st', .element tag cls idp' pos children')
            else (st, .element tag cls idp' pos children)
    let (st2, rest') := visitList labelRoot baseLine fatherId fuel st1 rest (idsIn.tailD [])
    (st2, node' :: rest')

/-- `transformNote` (`src/transformer.ts`): bail out on an empty tree, set
the tree's position to its first child's, then run the id-assignment visit
over the whole tree. -/
def transformNote (labelRoot : Bool) (baseLine fatherId : Nat) (st : TrackArrays)
    (tree : Hast) : TrackArrays × Hast :=
  match tree with
  | .element tag cls idp _ (c :: cs) =>
    let pos' :=
      match c with
      | .element _ _ _ p _ => p
      | .nonElement => none
    let tree' : Hast := .element tag cls idp pos' (c :: cs)
    let (st', out) := visitList labelRoot baseLine fatherId (hastSize tree' + 1) st [tree'] []
    (st', out.headD tree')
  | t => (st, t)

/-! ### Position remapping in `parseNativeMarkdown` (`src/parser.ts`)

The `traverse` closure rewrites every delegated node's position from
rewritten-text coordinates back to original-input coordinates.  The tree it
runs over is whatever the external remark parse produced, so the embedding
takes an arbitrary tree of kind/position/children records as input, together
with the `trimNums`/`mathNums` arrays built by the rewriting loop and the
caller's `offset`. -/

/-- A position triple with JavaScript-number (signed) fields, for the
remapped output. -/
structure PosI where
  line : Int
  column : Int
  offset : Int
deriving Repr, DecidableEq

/-- Signed read of a `Nat` array; out-of-range reads return 0 (JavaScript
would read `undefined`; on the executed paths the indices are in range). -/
def natIdx (l : List Nat) (i : Int) : Int :=
  if 0 ≤ i ∧ i.toNat < l.length then (l.getD i.toNat 0 : Int) else 0

/-- `getPosition` applied to a signed index. -/
def getPosI (lines columns : List Nat) (i : Int) : PosI :=
  { line := natIdx lines i, column := natIdx columns i, offset := i }

/-- A node of the delegate's AST before remapping: node type, optional
position (start line, start offset, end line, end offset — remark positions
are 1-based lines), and children. -/
inductive Mdast where
  | node (kind : String) (pos : Option (Nat × Nat × Nat × Nat)) (children : List Mdast)
deriving Repr

/-- A node after remapping: position replaced by `getPosition` results. -/
inductive MdastOut where
  | node (kind : String) (pos : Option (PosI × PosI)) (children : List MdastOut)
deriving Repr

mutual

/-- The `traverse` closure of `parseNativeMarkdown`, threading the mutable
`boxNum` counter in pre-order: undo the `$$` reformatting line/offset shift,
re-add the accumulated leading-space trim, add the caller's offset, subtract
11 per previously seen box placeholder, and (for a placeholder itself)
increment `boxNum` and push the end position 3 characters right. -/
def traverse (lines columns trimNums mathNums : List Nat) (offset : Nat) :
    Nat → Mdast → Nat × MdastOut
  | boxNum, .node kind pos children =>
    match pos with
    | none =>
      let (b', cs') := traverseList lines columns trimNums mathNums offset boxNum children
      (b', .node kind none cs')
    | some (sl, so, el, eo) =>
      let startLine : Int := (sl : Int) - natIdx mathNums ((sl : Int) - 1) * 3
      let endLine : Int := (el : Int) - natIdx mathNums ((el : Int)) * 3
      let startOffset : Int := (so : Int) - natIdx mathNums ((sl : Int) - 1) * 3
      let endOffset : Int := (eo : Int) - natIdx mathNums ((el : Int)) * 3
      let startPos : Int := startOffset + offset + natIdx trimNums startLine - boxNum * 11
      let endPos : Int := endOffset + offset + natIdx trimNums endLine - boxNum * 11
      let bp := if kind = "html" then (boxNum + 1, endPos + 3) else (boxNum, endPos)
      let (b', cs') := traverseList lines columns trimNums mathNums offset bp.1 children
      (b', .node kind (some (getPosI lines columns startPos, getPosI lines columns bp.2)) cs')

/-- `for (const child of node.children) traverse(child)`. -/
def traverseList (lines columns trimNums mathNums : List Nat) (offset : Nat) :
    Nat → List Mdast → Nat × List MdastOut
  | b, [] => (b, [])
  | b, c :: cs =>
    let (b1, c') := traverse lines columns trimNums mathNums offset b c
    let (b2, cs') := traverseList lines columns trimNums mathNums offset b1 cs
    (b2, c' :: cs')

end

mutual

/-- Pre-order flattening of an input tree to (kind, position) records. -/
def flatM : Mdast → List (String × Option (Nat × Nat × Nat × Nat))
  | .node k p cs => (k, p) :: flatMList cs

/-- See `flatM`. -/
def flatMList : List Mdast → List (String × Option (Nat × Nat × Nat × Nat))
  | [] => []
  | c :: cs => flatM c ++ flatMList cs

end

mutual

/-- Pre-order flattening of a remapped tree. -/
def flatO : MdastOut → List (String × Option (PosI × PosI))
  | .node k p cs => (k, p) :: flatOList cs

/-- See `flatO`. -/
def flatOList : List MdastOut → List (String × Option (PosI × PosI))
  | [] => []
  | c :: cs => flatO c ++ flatOList cs

end

/-- Number of position-carrying `html` (box placeholder) records — only
those advance `boxNum` in the source. -/
def countHtml : List (String × Option (Nat × Nat × Nat × Nat)) → Nat
  | [] => 0
  | (k, p) :: rest => (if k = "html" ∧ p ≠ none then 1 else 0) + countHtml rest

/-- The correction formula of the specification, applied record by record in
pre-order with `b` counting the prior box-placeholder substitutions: new
offset = old offset − 3·(reformatting occurrences up to the node's line)
+ accumulated per-line trim + caller offset − 11·b, plus a fixed 3-character
end adjustment when the node itself is a placeholder. -/
def specRemap (lines columns trimNums mathNums : List Nat) (offset : Nat) :
    Nat → List (String × Option (Nat × Nat × Nat × Nat)) → List (String × Option (PosI × PosI))
  | _, [] => []
  | b, (k, none) :: rest => (k, none) :: specRemap lines columns trimNums mathNums offset b rest
  | b, (k, some (sl, so, el, eo)) :: rest =>
    let newStartLine : Int := (sl : Int) - natIdx mathNums ((sl : Int) - 1) * 3
    let newEndLine : Int := (el : Int) - natIdx mathNums ((el : Int)) * 3
    let sPos : Int :=
      (so : Int) - natIdx mathNums ((sl : Int) - 1) * 3 + offset +
        natIdx trimNums newStartLine - b * 11
    let ePos : Int :=
      (eo : Int) - natIdx mathNums ((el : Int)) * 3 + offset +
        natIdx trimNums newEndLine - b * 11 + (if k = "html" then 3 else 0)
    (k, some (getPosI lines columns sPos, getPosI lines columns ePos)) ::
      specRemap lines columns trimNums mathNums offset
        (b + if k = "html" then 1 else 0) rest

/-! ### The edit queue (`src/extension.ts`)

`enqueueMessage`/`processQueue` as a transition system.  JavaScript is
single-threaded with run-to-completion semantics: the synchronous prefix of
`processQueue` (the `isProcessing` test-and-set and the `shift`) runs
atomically, and the completion of an awaited `handleTextChange` (including
its `catch`) is a separate atomic turn.  States carry ghost fields recording
the arrival order, the start order, and the set of messages whose
`handleTextChange` has started but not completed. -/

/-- Controller state: the message queue, the `isProcessing` flag, and ghost
history fields.  Messages are identified by numbers. -/
structure QState where
  queue : List Nat
  isProcessing : Bool
  inflight : List Nat
  started : List Nat
  arrived : List Nat
deriving Repr, DecidableEq

/-- The synchronous body of `processQueue`: if already processing or the
queue is empty, return; otherwise set `isProcessing`, shift the first
message and start its `handleTextChange`. -/
def runProcessQueue (s : QState) : QState :=
  if s.isProcessing then s
  else
    match s.queue with
    | [] => s
    | m :: rest =>
      { s with
        queue := rest
        isProcessing := true
        inflight := s.inflight ++ [m]
        started := s.started ++ [m] }

/-- The initial controller state (`messageQueue = []`, `isProcessing =
false`), as set up in `activate` and restored by `cleanUp`. -/
def qInit : QState :=
  { queue := [], isProcessing := false, inflight := [], started := [], arrived := [] }

/-- Atomic turns of the event loop: `enqueue` models `enqueueMessage`
(push, then the synchronous part of `processQueue`); `finish` models the
completion of the awaited `handleTextChange` (`isProcessing = false`,
then `processQueue()` again). -/
inductive QStep : QState → QState → Prop
  | enqueue (s : QState) (m : Nat) :
      QStep s (runProcessQueue
        { s with queue := s.queue ++ [m], arrived := s.arrived ++ [m] })
  | finish (s : QState) (h : s.inflight ≠ []) :
      QStep s (runProcessQueue
        { s with inflight := s.inflight.tail, isProcessing := false })

/-- Reachability from the initial state. -/
inductive QReach : QState → Prop
  | init : QReach qInit
  | step {s s' : QState} : QReach s → QStep s s' → QReach s'

/-- Discriminator: is this node the root variant? -/
def NoteNode.isRoot : NoteNode → Bool
  | .root _ _ _ _ => true
  | _ => false

/-- Discriminator: is this node a block? -/
def NoteNode.isBlock : NoteNode → Bool
  | .block _ _ _ _ _ _ => true
  | _ => false

/-- The render-hint CSS class of a node (`data.hProperties.class`). -/
def NoteNode.className : NoteNode → String
  | .markdown _ _ _ c => c.getD ""
  | .block c _ _ _ _ _ => c
  | .inlineBlock c _ _ _ _ _ => c
  | .root c _ _ _ => c

/-- The children of a node. -/
def NoteNode.childList : NoteNode → List NoteNode
  | .markdown _ _ _ _ => []
  | .block _ _ _ _ _ cs => cs
  | .inlineBlock _ _ _ _ _ cs => cs
  | .root _ _ _ cs => cs

/-- The variant name of a node (`node.type` in the source). -/
def NoteNode.kindName : NoteNode → String
  | .markdown _ _ _ _ => "markdown"
  | .block _ _ _ _ _ _ => "block"
  | .inlineBlock _ _ _ _ _ _ => "inline-block"
  | .root _ _ _ _ => "root"

/-! ### Concrete inputs and auxiliary definitions for the theorems -/

/-- The input of testable property 3: `@def` with its `@` at column 5 while
the indent level is 0 (open brace at line end, closing brace on the next
line). -/
def defAtCol5 : List Char := "    @def ".data ++ [lbrace, '\n', rbrace]

/-- The raw (pre-expansion) label scanned by a block or inline-block match
attempt starting at index `i`: the lowercase run right after the `@`, which
itself may follow a `+` link marker. -/
def rawBlockLabel (input : List Char) (i : Nat) : String :=
  let i0 := if input[i]? = some '+' then i + 1 else i
  (sliceStr input (i0 + 1) (scanWhile isLowerAlpha input (i0 + 1))).asString

/-- The input of testable property 4. -/
def thmPythagoras : List Char := "@thm Pythagoras ".data ++ [lbrace, '\n', rbrace]

/-- A concrete normalized block-open input (`@thm x ` + brace + newline),
used to discharge hypotheses in witnesses. -/
def wBlockNorm : List Char × List Nat × List Nat :=
  normalizeInput ("@thm x ".data ++ [lbrace, '\n'])

/-- A concrete normalized inline-block input (`@tip hello` + newline). -/
def wInlineNorm : List Char × List Nat × List Nat :=
  normalizeInput "@tip hello\n".data

/-- A concrete inline block followed by a newline and a next line of text. -/
def tipRest : List Char := "@tip remember this\nrest".data

/-- An unclosed block at end of input. -/
def unclosedDef : List Char := "@def ".data ++ [lbrace] ++ "\nhello".data

/-- A block-open whose brace is not at the end of its line. -/
def braceNotEol : List Char := "@thm x ".data ++ [lbrace] ++ " y\n".data

/-- A block-open whose name never reaches a brace (unterminated). -/
def untermName : List Char := "@thm foo".data

/-- The rendered tree of the C4 counterexample: a content wrapper spanning
lines 1–5 whose two tracked paragraph children cover lines 1 and 3, leaving
lines 2, 4 and 5 uncovered; it sits under a `markdown-body` root. -/
def gapTree : Hast :=
  .element "div" (some "markdown-body") none none
    [.element "div" (some "content") none (some (1, 5))
      [.element "p" none none (some (1, 1)) [],
       .element "p" none none (some (3, 3)) []]]

/-- Initial arrays for the counterexample (fresh session, map extended to 5
lines). -/
def gapSt : TrackArrays :=
  { counter := 0, map := [none, none, none, none, none, none],
    mapFather := [0], mapDepth := [-1], mapStartLine := [-1], mapEndLine := [-1] }

/-- The children and state used by the C4 amended-claim witness. -/
def c4cs : List Hast :=
  [.element "p" none none (some (1, 1)) [], .element "p" none none (some (3, 3)) []]

/-- See `c4cs`. -/
def c4st : TrackArrays :=
  { counter := 6, map := [none, none, none, none, none, none],
    mapFather := [0], mapDepth := [-1], mapStartLine := [-1], mapEndLine := [-1] }

/-- Invariant of the controller: at most one `handleTextChange` in flight,
messages started in arrival order (what was started plus what still queues
is exactly what arrived, in order), and the `isProcessing` flag tracks
whether something is in flight. -/
def QInv (s : QState) : Prop :=
  s.inflight.length ≤ 1 ∧ s.started ++ s.queue = s.arrived ∧
    (s.isProcessing = true ↔ s.inflight ≠ [])

/-- The line→id map of testable property 7: ids 1, 2, 3 cover lines 1–5,
6–10, 11–15; entry 0 is the `undefined` sentinel. -/
def c3map : List (Option Nat) :=
  [none, some 1, some 1, some 1, some 1, some 1, some 2, some 2, some 2, some 2, some 2,
   some 3, some 3, some 3, some 3, some 3]

/-- Parent array of the scenario: 1, 2, 3 are children of the root 0. -/
def c3Father : List Nat := [0, 0, 0, 0]

/-- Depth array of the scenario (root sentinel at depth −1). -/
def c3Depth : List Int := [-1, 0, 0, 0]

/-- Tracked start lines of the scenario. -/
def c3Start : List Int := [-1, 1, 6, 11]

/-- Tracked end lines of the scenario. -/
def c3End : List Int := [-1, 5, 10, 15]

/-! ## Scan-loop lemmas -/

theorem scanAux_ge (p : Char → Bool) : ∀ (l : List Char) (i : Nat), i ≤ scanAux p l i := by
  intro l
  induction l with
  | nil => intro i; simp [scanAux]
  | cons c rest ih =>
    intro i
    unfold scanAux
    split
    · exact Nat.le_trans (Nat.le_succ i) (ih (i + 1))
    · exact Nat.le_refl i

theorem scanAux_le (p : Char → Bool) :
    ∀ (l : List Char) (i : Nat), scanAux p l i ≤ i + l.length := by
  intro l
  induction l with
  | nil => intro i; simp [scanAux]
  | cons c rest ih =>
    intro i
    unfold scanAux
    split
    · have := ih (i + 1)
      simp only [List.length_cons]
      omega
    · simp

theorem scanAux_mem (p : Char → Bool) :
    ∀ (l : List Char) (i j : Nat), i ≤ j → j < scanAux p l i →
      ∃ c, l[j - i]? = some c ∧ p c = true := by
  intro l
  induction l with
  | nil =>
    intro i j hij h
    simp [scanAux] at h
    omega
  | cons c rest ih =>
    intro i j hij h
    unfold scanAux at h
    by_cases hp : p c
    · rw [if_pos hp] at h
      rcases Nat.eq_or_lt_of_le hij with rfl | hlt
      · exact ⟨c, by simp, hp⟩
      · rcases ih (i + 1) j hlt h with ⟨c', hc', hpc'⟩
        refine ⟨c', ?_, hpc'⟩
        have hji : j - i = (j - (i + 1)) + 1 := by omega
        rw [hji]
        simpa using hc'
    · rw [if_neg hp] at h
      omega

theorem scanAux_stop (p : Char → Bool) :
    ∀ (l : List Char) (i : Nat), scanAux p l i < i + l.length →
      ∃ c, l[scanAux p l i - i]? = some c ∧ p c = false := by
  intro l
  induction l with
  | nil => intro i h; simp [scanAux] at h
  | cons c rest ih =>
    intro i h
    unfold scanAux at h ⊢
    by_cases hp : p c
    · rw [if_pos hp] at h ⊢
      have h' : scanAux p rest (i + 1) < (i + 1) + rest.length := by
        simp only [List.length_cons] at h
        omega
      rcases ih (i + 1) h' with ⟨c', hc', hpc'⟩
      have hge := scanAux_ge p rest (i + 1)
      refine ⟨c', ?_, hpc'⟩
      have hs : scanAux p rest (i + 1) - i = (scanAux p rest (i + 1) - (i + 1)) + 1 := by omega
      rw [hs]
      simpa using hc'
    · rw [if_neg hp]
      exact ⟨c, by simp, by simpa using hp⟩

theorem scanWhile_ge (p : Char → Bool) (input : List Char) (i : Nat) :
    i ≤ scanWhile p input i :=
  scanAux_ge p (input.drop i) i

theorem scanWhile_le (p : Char → Bool) (input : List Char) (i : Nat)
    (h : i ≤ input.length) : scanWhile p input i ≤ input.length := by
  have h2 := scanAux_le p (input.drop i) i
  rw [List.length_drop] at h2
  unfold scanWhile
  omega

theorem scanWhile_mem (p : Char → Bool) (input : List Char) {i j : Nat}
    (hij : i ≤ j) (h : j < scanWhile p input i) :
    ∃ c, input[j]? = some c ∧ p c = true := by
  rcases scanAux_mem p (input.drop i) i j hij h with ⟨c, hc, hpc⟩
  refine ⟨c, ?_, hpc⟩
  rw [List.getElem?_drop] at hc
  rwa [Nat.add_sub_cancel' hij] at hc

theorem scanWhile_stop (p : Char → Bool) (input : List Char) (i : Nat)
    (h : scanWhile p input i < input.length) :
    ∃ c, input[scanWhile p input i]? = some c ∧ p c = false := by
  have h2 : scanAux p (input.drop i) i < i + (input.drop i).length := by
    rw [List.length_drop]
    unfold scanWhile at h
    have := scanAux_ge p (input.drop i) i
    omega
  rcases scanAux_stop p (input.drop i) i h2 with ⟨c, hc, hpc⟩
  refine ⟨c, ?_, hpc⟩
  rw [List.getElem?_drop, Nat.add_sub_cancel' (scanAux_ge p (input.drop i) i)] at hc
  exact hc

/-! ## Theorems -/

/-- C2: a block-open (and an inline-block) construct at index `i` is
recognized only when the column of character `i` equals
`indentLevel * 4 + 1`; and `@def ` + open brace whose `@` sits at column 5
while the indent level is 0 is not recognized as a block — the whole text is
handed to the Markdown delegate as one ordinary run whose text starts
(after the leading spaces) with `@def`. -/
theorem blockColumnGate :
    (∀ (input : List Char) (lines columns : List Nat) (lvl i : Nat) (r : Nat × NoteNode),
        parseBlockBegin input lines columns lvl i = some r →
        columns.getD i 0 = lvl * 4 + 1) ∧
    (∀ (input : List Char) (lines columns : List Nat) (lvl i : Nat) (r : Nat × NoteNode),
        parseInlineBlock input lines columns lvl i = some r →
        columns.getD i 0 = lvl * 4 + 1) ∧
    parseNoteCur defAtCol5 =
      .root "markdown-body" ⟨1, 1, 0⟩ ⟨2, 2, 12⟩ [.markdown defAtCol5 0 0 none] ∧
    defAtCol5.drop 4 = '@' :: "def".data ++ defAtCol5.drop 8 := by
  refine ⟨?_, ?_, ?_, ?_⟩
  · intro input lines columns lvl i r h
    by_contra hne
    unfold parseBlockBegin at h
    rw [if_pos hne] at h
    cases h
  · intro input lines columns lvl i r h
    by_contra hne
    unfold parseInlineBlock at h
    rw [if_pos hne] at h
    cases h
  · rfl
  · rfl

theorem parseBlockName_class (input : List Char) (lines columns : List Nat)
    (b : Nat) (label : String) (style : Option Char) (isLink : Bool) (i e : Nat) (n : NoteNode)
    (h : parseBlockName input lines columns b label style isLink i = some (e, n)) :
    n.className =
      resolveAbbr label ++ "-block-mdast" ++ (if isLink then " block-link" else "") := by
  unfold parseBlockName at h
  split at h
  · cases h
  · split at h
    · cases h
    · split at h
      · cases h
      · injection h with h1
        injection h1 with he hn
        rw [← hn]
        simp [blockOk, NoteNode.className]

theorem parseInlineContent_class (input : List Char) (lines columns : List Nat)
    (b : Nat) (label : String) (style : Option Char) (isLink : Bool) (i : Nat) :
    (parseInlineContent input lines columns b label style isLink i).2.className =
      resolveAbbr label ++ "-inline-block-mdast" ++
        (if isLink then " inline-block-link" else "") := by
  simp [parseInlineContent, inlineOk, NoteNode.className]

theorem parseBlockLabelK_class (input : List Char) (lines columns : List Nat)
    (b : Nat) (isLink : Bool) (i e : Nat) (n : NoteNode)
    (h : parseBlockLabelK input lines columns b isLink i = some (e, n)) :
    n.className =
      resolveAbbr (sliceStr input (i + 1) (scanWhile isLowerAlpha input (i + 1))).asString ++
        "-block-mdast" ++ (if isLink then " block-link" else "") := by
  unfold parseBlockLabelK at h
  split at h
  · cases h
  · split at h
    · cases h
    · split at h
      · exact parseBlockName_class _ _ _ _ _ _ _ _ _ _ h
      · unfold parseBlockStyleK at h
        split at h
        · exact parseBlockName_class _ _ _ _ _ _ _ _ _ _ h
        · exact parseBlockName_class _ _ _ _ _ _ _ _ _ _ h
        · exact parseBlockName_class _ _ _ _ _ _ _ _ _ _ h
        · cases h

theorem parseInlineLabelK_class (input : List Char) (lines columns : List Nat)
    (b : Nat) (isLink : Bool) (i e : Nat) (n : NoteNode)
    (h : parseInlineLabelK input lines columns b isLink i = some (e, n)) :
    n.className =
      resolveAbbr (sliceStr input (i + 1) (scanWhile isLowerAlpha input (i + 1))).asString ++
        "-inline-block-mdast" ++ (if isLink then " inline-block-link" else "") := by
  unfold parseInlineLabelK at h
  split at h
  · cases h
  · split at h
    · injection h with h1
      have h2 := congrArg Prod.snd h1
      dsimp only at h2
      rw [← h2]
      exact parseInlineContent_class _ _ _ _ _ _ _ _
    · unfold parseInlineStyleK at h
      split at h
      · injection h with h1
        have h2 := congrArg Prod.snd h1
        dsimp only at h2
        rw [← h2]
        exact parseInlineContent_class _ _ _ _ _ _ _ _
      · injection h with h1
        have h2 := congrArg Prod.snd h1
        dsimp only at h2
        rw [← h2]
        exact parseInlineContent_class _ _ _ _ _ _ _ _
      · injection h with h1
        have h2 := congrArg Prod.snd h1
        dsimp only at h2
        rw [← h2]
        exact parseInlineContent_class _ _ _ _ _ _ _ _
      · cases h

/-- C9: whenever a block or inline-block match completes, the node's
render-hint CSS class is built from the abbreviation-expanded label — the
raw scanned label mapped through `abbrMap` — and in particular
`@thm Pythagoras` + braces yields a node classed `theorem-block-mdast`,
not `thm-block-mdast`. -/
theorem abbr_expansion :
    (∀ (input : List Char) (lines columns : List Nat) (lvl i e : Nat) (n : NoteNode),
      parseBlockBegin input lines columns lvl i = some (e, n) →
      n.className = resolveAbbr (rawBlockLabel input i) ++ "-block-mdast" ++
        (if input[i]? = some '+' then " block-link" else "")) ∧
    (∀ (input : List Char) (lines columns : List Nat) (lvl i e : Nat) (n : NoteNode),
      parseInlineBlock input lines columns lvl i = some (e, n) →
      n.className = resolveAbbr (rawBlockLabel input i) ++ "-inline-block-mdast" ++
        (if input[i]? = some '+' then " inline-block-link" else "")) ∧
    resolveAbbr "thm" = "theorem" ∧
    (parseNoteCur thmPythagoras).childList.map NoteNode.className = ["theorem-block-mdast"] := by
  refine ⟨?_, ?_, rfl, rfl⟩
  · intro input lines columns lvl i e n h
    unfold parseBlockBegin at h
    split at h
    · cases h
    · split at h
      · rename_i hp
        rw [parseBlockLabelK_class _ _ _ _ _ _ _ _ h]
        simp [rawBlockLabel, hp]
      · rename_i hp
        rw [parseBlockLabelK_class _ _ _ _ _ _ _ _ h]
        simp [rawBlockLabel, hp]
  · intro input lines columns lvl i e n h
    unfold parseInlineBlock at h
    split at h
    · cases h
    · split at h
      · rename_i hp
        rw [parseInlineLabelK_class _ _ _ _ _ _ _ _ h]
        simp [rawBlockLabel, hp]
      · rename_i hp
        rw [parseInlineLabelK_class _ _ _ _ _ _ _ _ h]
        simp [rawBlockLabel, hp]

theorem inlineContent_newline (input : List Char) (lines columns : List Nat) (b : Nat)
    (label : String) (style : Option Char) (isLink : Bool) (i s : Nat)
    (hs : s ≤ input.length)
    (hpre : ∀ j, i ≤ j → j < s → input[j]? ≠ some '\n') :
    (∃ nl, (parseInlineContent input lines columns b label style isLink s).1 = nl + 1 ∧
        input[nl]? = some '\n' ∧ ∀ j, i ≤ j → j < nl → input[j]? ≠ some '\n') ∨
      ((parseInlineContent input lines columns b label style isLink s).1 = input.length + 1 ∧
        ∀ j, i ≤ j → input[j]? ≠ some '\n') := by
  have hfst : (parseInlineContent input lines columns b label style isLink s).1 =
      scanWhile (fun c => c != '\n') input s + 1 := by
    simp [parseInlineContent]
  have hge := scanWhile_ge (fun c => c != '\n') input s
  have hle := scanWhile_le (fun c => c != '\n') input s hs
  have hall : ∀ j, i ≤ j → j < scanWhile (fun c => c != '\n') input s →
      input[j]? ≠ some '\n' := by
    intro j h1 h2 hj
    by_cases hjs : j < s
    · exact hpre j h1 hjs hj
    · rcases scanWhile_mem (fun c => c != '\n') input (Nat.le_of_not_lt hjs) h2 with
        ⟨c, hc, hpc⟩
      rw [hj] at hc
      injection hc with hc'
      rw [← hc'] at hpc
      simp at hpc
  by_cases hrlen : scanWhile (fun c => c != '\n') input s < input.length
  · rcases scanWhile_stop (fun c => c != '\n') input s hrlen with ⟨c, hc, hpc⟩
    have hceq : c = '\n' := by simpa using hpc
    rw [hceq] at hc
    exact Or.inl ⟨scanWhile (fun c => c != '\n') input s, hfst, hc, hall⟩
  · have hreq : scanWhile (fun c => c != '\n') input s = input.length := by omega
    refine Or.inr ⟨by rw [hfst, hreq], fun j h1 hj => ?_⟩
    by_cases hjl : j < input.length
    · exact hall j h1 (by omega) hj
    · rw [List.getElem?_eq_none (Nat.le_of_not_lt hjl)] at hj
      cases hj

theorem parseInlineLabelK_newline (input : List Char) (lines columns : List Nat)
    (b : Nat) (isLink : Bool) (i e : Nat) (n : NoteNode)
    (h : parseInlineLabelK input lines columns b isLink i = some (e, n)) :
    (∃ nl, e = nl + 1 ∧ input[nl]? = some '\n' ∧
        ∀ j, i ≤ j → j < nl → input[j]? ≠ some '\n') ∨
      (e = input.length + 1 ∧ ∀ j, i ≤ j → input[j]? ≠ some '\n') := by
  unfold parseInlineLabelK at h
  split at h
  · cases h
  · rename_i hAt
    rw [not_not] at hAt
    have hpre : ∀ j, i ≤ j → j < scanWhile isLowerAlpha input (i + 1) →
        input[j]? ≠ some '\n' := by
      intro j h1 h2 hj
      rcases Nat.eq_or_lt_of_le h1 with rfl | h1'
      · rw [hAt] at hj
        cases hj
      · rcases scanWhile_mem isLowerAlpha input h1' h2 with ⟨c, hc, hpc⟩
        rw [hj] at hc
        injection hc with hc'
        rw [← hc'] at hpc
        exact absurd hpc (by decide)
    split at h
    · rename_i hc
      injection h with h1
      have he := congrArg Prod.fst h1
      dsimp only at he
      rw [← he]
      exact inlineContent_newline input lines columns b _ none isLink i _
        (Nat.le_of_lt hc.1) hpre
    · rename_i hnc
      unfold parseInlineStyleK at h
      split at h <;> rename_i heq
      case _ =>
        injection h with h1
        have he := congrArg Prod.fst h1
        dsimp only at he
        rw [← he]
        have hlt : scanWhile isLowerAlpha input (i + 1) < input.length := by
          by_contra hge
          push_neg at hge
          rw [List.getElem?_eq_none hge] at heq
          cases heq
        refine inlineContent_newline input lines columns b _ (some '?') isLink i _ hlt ?_
        intro j h1 h2 hj
        by_cases hji : j < scanWhile isLowerAlpha input (i + 1)
        · exact hpre j h1 hji hj
        · have : j = scanWhile isLowerAlpha input (i + 1) := by omega
          rw [this, heq] at hj
          cases hj
      case _ =>
        injection h with h1
        have he := congrArg Prod.fst h1
        dsimp only at he
        rw [← he]
        have hlt : scanWhile isLowerAlpha input (i + 1) < input.length := by
          by_contra hge
          push_neg at hge
          rw [List.getElem?_eq_none hge] at heq
          cases heq
        refine inlineContent_newline input lines columns b _ (some '!') isLink i _ hlt ?_
        intro j h1 h2 hj
        by_cases hji : j < scanWhile isLowerAlpha input (i + 1)
        · exact hpre j h1 hji hj
        · have : j = scanWhile isLowerAlpha input (i + 1) := by omega
          rw [this, heq] at hj
          cases hj
      case _ =>
        injection h with h1
        have he := congrArg Prod.fst h1
        dsimp only at he
        rw [← he]
        have hlt : scanWhile isLowerAlpha input (i + 1) < input.length := by
          by_contra hge
          push_neg at hge
          rw [List.getElem?_eq_none hge] at heq
          cases heq
        refine inlineContent_newline input lines columns b _ (some '*') isLink i _ hlt ?_
        intro j h1 h2 hj
        by_cases hji : j < scanWhile isLowerAlpha input (i + 1)
        · exact hpre j h1 hji hj
        · have : j = scanWhile isLowerAlpha input (i + 1) := by omega
          rw [this, heq] at hj
          cases hj
      case _ => cases h

/-- C10: a successful inline-block match consumes its terminating newline:
the returned end index is one past the first newline at or after the match
start (or one past the end of input when no newline remains), so the next
text run handed to the Markdown delegate begins at the start of the
following line — as the concrete parse shows, where the following run is
`rest` at offset 19, just past the newline at offset 18. -/
theorem inlineBlock_consumes_newline :
    (∀ (input : List Char) (lines columns : List Nat) (lvl i e : Nat) (n : NoteNode),
      parseInlineBlock input lines columns lvl i = some (e, n) →
      (∃ nl, e = nl + 1 ∧ input[nl]? = some '\n' ∧
          ∀ j, i ≤ j → j < nl → input[j]? ≠ some '\n') ∨
        (e = input.length + 1 ∧ ∀ j, i ≤ j → input[j]? ≠ some '\n')) ∧
    parseNoteCur tipRest = .root "markdown-body" ⟨1, 1, 0⟩ ⟨2, 5, 23⟩
      [.inlineBlock "tip-inline-block-mdast" none false ⟨1, 1, 0⟩ ⟨2, 1, 19⟩
        [.markdown " remember this".data 0 4 (some "inline-block-content")],
       .markdown "rest".data 0 19 none] := by
  constructor
  · intro input lines columns lvl i e n h
    unfold parseInlineBlock at h
    split at h
    · cases h
    · split at h
      · rename_i hp
        rcases parseInlineLabelK_newline _ _ _ _ _ _ _ _ h with
          ⟨nl, he, hnl, hall⟩ | ⟨he, hall⟩
        · refine Or.inl ⟨nl, he, hnl, fun j h1 h2 hj => ?_⟩
          rcases Nat.eq_or_lt_of_le h1 with rfl | h1'
          · rw [hp] at hj
            cases hj
          · exact hall j h1' h2 hj
        · refine Or.inr ⟨he, fun j h1 hj => ?_⟩
          rcases Nat.eq_or_lt_of_le h1 with rfl | h1'
          · rw [hp] at hj
            cases hj
          · exact hall j h1' hj
      · exact parseInlineLabelK_newline _ _ _ _ _ _ _ _ h
  · rfl

/-- Witness for C10: applying `inlineBlock_consumes_newline` to the concrete
`@tip hello` + newline match, whose end index is 11 = (newline at 10) + 1. -/
theorem inlineBlock_consumes_newline_witness :
    (∃ nl, 11 = nl + 1 ∧ wInlineNorm.1[nl]? = some '\n' ∧
        ∀ j, 0 ≤ j → j < nl → wInlineNorm.1[j]? ≠ some '\n') ∨
      (11 = wInlineNorm.1.length + 1 ∧ ∀ j, 0 ≤ j → wInlineNorm.1[j]? ≠ some '\n') :=
  inlineBlock_consumes_newline.1 wInlineNorm.1 wInlineNorm.2.1 wInlineNorm.2.2 0 0 11
    (.inlineBlock "tip-inline-block-mdast" none false ⟨1, 1, 0⟩ ⟨2, 1, 11⟩
      [.markdown " hello".data 0 4 (some "inline-block-content")]) rfl

theorem shiftArr_getD (yLine delta : Int) (counter : Nat) :
    ∀ (l : List Int) (start j : Nat), j < l.length →
      (shiftArr yLine delta counter start l).getD j 0 =
        (if 1 ≤ start + j ∧ start + j ≤ counter ∧ l.getD j 0 > yLine then l.getD j 0 + delta
         else l.getD j 0) := by
  intro l
  induction l with
  | nil => intro start j h; cases h
  | cons v rest ih =>
    intro start j h
    cases j with
    | zero => simp [shiftArr]
    | succ k =>
      have hk : k < rest.length := by simpa using h
      have hrec := ih (start + 1) k hk
      have harith : start + (k + 1) = (start + 1) + k := by omega
      simp only [shiftArr, List.getD_cons_succ, harith]
      exact hrec

/-- C7: the array-maintenance step of `handleTextChange` shifts a tracked
element's start line (and, independently, its end line) by exactly
`deltaLength` exactly when it lies after the old end line `yLine` of the
affected range, leaves the id counter and the parent/depth arrays untouched,
and leaves the line range of an element lying entirely before the recomputed
region unchanged. -/
theorem trackedShift_frame (t : TrackArrays) (yLine deltaLength xLine newYLine : Int)
    (totalLines editorTotalLines : Nat) (i : Nat)
    (h1 : 1 ≤ i) (h2 : i ≤ t.counter)
    (hsl : i < t.mapStartLine.length) (hel : i < t.mapEndLine.length) :
    (handleChangeMaintain t yLine deltaLength xLine newYLine totalLines
        editorTotalLines).counter = t.counter ∧
    (handleChangeMaintain t yLine deltaLength xLine newYLine totalLines
        editorTotalLines).mapFather = t.mapFather ∧
    (handleChangeMaintain t yLine deltaLength xLine newYLine totalLines
        editorTotalLines).mapDepth = t.mapDepth ∧
    (handleChangeMaintain t yLine deltaLength xLine newYLine totalLines
        editorTotalLines).mapStartLine.getD i 0 =
      (if t.mapStartLine.getD i 0 > yLine then t.mapStartLine.getD i 0 + deltaLength
       else t.mapStartLine.getD i 0) ∧
    (handleChangeMaintain t yLine deltaLength xLine newYLine totalLines
        editorTotalLines).mapEndLine.getD i 0 =
      (if t.mapEndLine.getD i 0 > yLine then t.mapEndLine.getD i 0 + deltaLength
       else t.mapEndLine.getD i 0) ∧
    (t.mapStartLine.getD i 0 ≤ t.mapEndLine.getD i 0 → t.mapEndLine.getD i 0 < xLine →
      xLine ≤ yLine →
      (handleChangeMaintain t yLine deltaLength xLine newYLine totalLines
          editorTotalLines).mapStartLine.getD i 0 = t.mapStartLine.getD i 0 ∧
      (handleChangeMaintain t yLine deltaLength xLine newYLine totalLines
          editorTotalLines).mapEndLine.getD i 0 = t.mapEndLine.getD i 0) := by
  have hprojS : (handleChangeMaintain t yLine deltaLength xLine newYLine totalLines
      editorTotalLines).mapStartLine = shiftArr yLine deltaLength t.counter 0 t.mapStartLine := rfl
  have hprojE : (handleChangeMaintain t yLine deltaLength xLine newYLine totalLines
      editorTotalLines).mapEndLine = shiftArr yLine deltaLength t.counter 0 t.mapEndLine := rfl
  have hs := shiftArr_getD yLine deltaLength t.counter t.mapStartLine 0 i hsl
  have he := shiftArr_getD yLine deltaLength t.counter t.mapEndLine 0 i hel
  simp only [Nat.zero_add] at hs he
  have hs' : (handleChangeMaintain t yLine deltaLength xLine newYLine totalLines
      editorTotalLines).mapStartLine.getD i 0 =
      (if t.mapStartLine.getD i 0 > yLine then t.mapStartLine.getD i 0 + deltaLength
       else t.mapStartLine.getD i 0) := by
    rw [hprojS, hs]
    by_cases hv : t.mapStartLine.getD i 0 > yLine <;> simp [h1, h2, hv]
  have he' : (handleChangeMaintain t yLine deltaLength xLine newYLine totalLines
      editorTotalLines).mapEndLine.getD i 0 =
      (if t.mapEndLine.getD i 0 > yLine then t.mapEndLine.getD i 0 + deltaLength
       else t.mapEndLine.getD i 0) := by
    rw [hprojE, he]
    by_cases hv : t.mapEndLine.getD i 0 > yLine <;> simp [h1, h2, hv]
  refine ⟨rfl, rfl, rfl, hs', he', fun hse hex hxy => ?_⟩
  have hsy : ¬ t.mapStartLine.getD i 0 > yLine := by omega
  have hey : ¬ t.mapEndLine.getD i 0 > yLine := by omega
  rw [hs', he', if_neg hsy, if_neg hey]
  exact ⟨rfl, rfl⟩

/-- Witness for C7: applying `trackedShift_frame` to a two-element tracked
tree where element 1 lies before the region and element 2 after it. -/
theorem trackedShift_frame_witness :
    (handleChangeMaintain
        { counter := 2, map := [none, some 1, some 2], mapFather := [0, 0, 0],
          mapDepth := [-1, 0, 0], mapStartLine := [-1, 1, 4], mapEndLine := [-1, 2, 6] }
        3 5 3 3 6 6).mapStartLine.getD 2 0 =
      (if (4 : Int) > 3 then (4 : Int) + 5 else 4) :=
  (trackedShift_frame
    { counter := 2, map := [none, some 1, some 2], mapFather := [0, 0, 0],
      mapDepth := [-1, 0, 0], mapStartLine := [-1, 1, 4], mapEndLine := [-1, 2, 6] }
    3 5 3 3 6 6 2 (by decide) (by decide) (by decide) (by decide)).2.2.2.1

theorem getLastD_isRoot_congr (l : List StackEntry) (a b : StackEntry)
    (h : a.isRoot = b.isRoot) : (l.getLastD a).isRoot = (l.getLastD b).isRoot := by
  cases l with
  | nil => exact h
  | cons x xs => rw [List.getLastD_cons, List.getLastD_cons]

theorem parseLoop_bottomRoot (input : List Char) (lines columns : List Nat) :
    ∀ (fuel index lvl : Nat) (top : StackEntry) (rest : List StackEntry),
      ((parseLoop input lines columns fuel index lvl top rest).2.1.getLastD
          (parseLoop input lines columns fuel index lvl top rest).1).isRoot =
        (rest.getLastD top).isRoot := by
  intro fuel
  induction fuel with
  | zero => intro index lvl top rest; rfl
  | succ n ih =>
    intro index lvl top rest
    rw [parseLoop.eq_def]
    dsimp only
    split
    · rename_i hidx
      split
      · rename_i endIndex selfNode hm
        split
        · rename_i cls st lk sp ep kids
          rw [ih]
          rw [List.getLastD_cons]
          refine getLastD_isRoot_congr _ _ _ ?_
          cases runNativeMarkdown (sliceStr input top.current index) (lvl * 4) top.current <;>
            rfl
        · rw [ih]
          refine getLastD_isRoot_congr _ _ _ ?_
          cases runNativeMarkdown (sliceStr input top.current index) (lvl * 4) top.current <;>
            rfl
      · split
        · split
          · rename_i parent rest' hr
            rw [ih]
            rw [List.getLastD_cons]
            exact getLastD_isRoot_congr _ _ _ rfl
          · rw [ih]
        · rw [ih]
    · rfl

theorem buildEntry_isRoot (lines columns : List Nat) (inputLen : Nat) (e : StackEntry) :
    (buildEntry lines columns inputLen e).isRoot = e.isRoot := by
  unfold buildEntry
  split
  · rename_i h
    simp [NoteNode.isRoot, h]
  · rename_i h
    simp only [NoteNode.isRoot]
    exact (Bool.eq_false_iff.mpr (by simpa using h)).symm

theorem collapse_isRoot (lines columns : List Nat) (inputLen : Nat) :
    ∀ (rest : List StackEntry) (top : StackEntry),
      (collapse lines columns inputLen top rest).isRoot = (rest.getLastD top).isRoot := by
  intro rest
  induction rest with
  | nil =>
    intro top
    exact buildEntry_isRoot lines columns inputLen top
  | cons parent rest' ih =>
    intro top
    unfold collapse
    rw [ih]
    rw [List.getLastD_cons]
    exact getLastD_isRoot_congr _ _ _ rfl

theorem parseNoteCur_isRoot (text : List Char) : (parseNoteCur text).isRoot = true := by
  unfold parseNoteCur
  rcases hN : normalizeInput text with ⟨input, lines, columns⟩
  simp only []
  rcases hL : parseLoop input lines columns (input.length + 1) 0 0
      { isRoot := true, className := "markdown-body", style := none, isLink := false,
        startPos := getPosition lines columns 0, openEnd := getPosition lines columns 0,
        children := [], current := 0 } [] with ⟨top, rest, lvl⟩
  simp only []
  have hB := parseLoop_bottomRoot input lines columns (input.length + 1) 0 0
    { isRoot := true, className := "markdown-body", style := none, isLink := false,
      startPos := getPosition lines columns 0, openEnd := getPosition lines columns 0,
      children := [], current := 0 } []
  rw [hL] at hB
  simp only [List.getLastD_nil] at hB
  have hC := collapse_isRoot lines columns input.length rest
  split
  · rename_i a ha
    rw [hC]
    exact (getLastD_isRoot_congr rest
      { top with children := top.children ++ [a] } top rfl).trans hB
  · rw [hC]
    exact hB

/-- C5 counterexample: for a brace not at line end the block-open attempt
fails, but the text then matches the inline-block attempt and is parsed as
an inline-block construct — not treated as ordinary Markdown content as the
claim states. -/
theorem parseNote_malformed_counterexample :
    parseBlockBegin (normalizeInput braceNotEol).1 (normalizeInput braceNotEol).2.1
        (normalizeInput braceNotEol).2.2 0 0 = none ∧
      (parseNoteCur braceNotEol).childList.map NoteNode.kindName = ["inline-block"] :=
  ⟨rfl, rfl⟩

/-- C5 amended: the current `parseNote` always returns a root tree and never
raises: a malformed block-open falls through to the inline-block attempt —
succeeding for an unterminated name or a brace not at line end (inline-block
nodes), with only an all-attempts-failed text (e.g. the wrong-column case)
handed to the delegate as ordinary Markdown — and a block still open at end
of input is implicitly closed without error, while the earlier parser
revision raises the unmatched-braces error on the same input. -/
theorem parseNote_error_policy :
    (∀ text : List Char, (parseNoteCur text).isRoot = true) ∧
    parseNoteOld unclosedDef = .error "Curly braces are not matched." ∧
    (parseNoteCur unclosedDef).childList.map NoteNode.kindName = ["block"] ∧
    (parseNoteCur defAtCol5).childList.map NoteNode.kindName = ["markdown"] ∧
    (parseNoteCur braceNotEol).childList.map NoteNode.kindName = ["inline-block"] ∧
    (parseNoteCur untermName).childList.map NoteNode.kindName = ["inline-block"] :=
  ⟨parseNoteCur_isRoot, rfl, rfl, rfl, rfl, rfl⟩

theorem setExtend_getD (m : List (Option Nat)) (i j : Nat) (v : Option Nat) :
    (setExtend m i v).getD j none = if j = i then v else m.getD j none := by
  unfold setExtend
  rw [List.getD_eq_getElem?_getD]
  split
  · rename_i hlt
    rcases eq_or_ne j i with rfl | hne
    · rw [List.getElem?_set_eq_of_lt v hlt]
      simp
    · rw [List.getElem?_set_ne (Ne.symm hne)]
      rw [if_neg hne, List.getD_eq_getElem?_getD]
  · rename_i hge
    push_neg at hge
    have hlen : (m ++ List.replicate (i - m.length) none).length = i := by
      simp only [List.length_append, List.length_replicate]
      omega
    rw [List.getElem?_append, hlen]
    rcases Nat.lt_trichotomy j i with hlt | rfl | hgt
    · rw [if_pos hlt, List.getElem?_append]
      by_cases hj : j < m.length
      · rw [if_pos hj, if_neg (by omega), List.getD_eq_getElem?_getD]
      · rw [if_neg hj, List.getElem?_replicate, if_pos (by omega), if_neg (by omega)]
        rw [List.getD_eq_getElem?_getD, List.getElem?_eq_none (by omega)]
        rfl
    · rw [if_neg (by omega), Nat.sub_self]
      simp
    · rw [if_neg (by omega)]
      have hji : j - i = (j - i - 1) + 1 := by omega
      rw [hji]
      have hLHS : [v][(j - i - 1) + 1]? = none := by simp
      rw [hLHS, if_neg (by omega : ¬ j = i), List.getD_eq_getElem?_getD,
        List.getElem?_eq_none (by omega : m.length ≤ j)]

theorem fillMapN_getD (id : Nat) :
    ∀ (n a : Nat) (m : List (Option Nat)) (l : Nat),
      (fillMapN id n a m).getD l none =
        if a ≤ l ∧ l < a + n then some id else m.getD l none := by
  intro n
  induction n with
  | zero =>
    intro a m l
    rw [fillMapN, if_neg (by omega)]
  | succ k ih =>
    intro a m l
    unfold fillMapN
    rw [ih (a + 1), setExtend_getD]
    by_cases h1 : a + 1 ≤ l ∧ l < a + 1 + k
    · rw [if_pos h1, if_pos (by omega)]
    · rw [if_neg h1]
      by_cases h2 : l = a
      · rw [if_pos h2, if_pos (by omega)]
      · rw [if_neg h2, if_neg (by omega)]

theorem fillMapLt_getD (id a b : Nat) (m : List (Option Nat)) (l : Nat) :
    (fillMapLt id a b m).getD l none = if a ≤ l ∧ l < b then some id else m.getD l none := by
  unfold fillMapLt
  rw [fillMapN_getD]
  by_cases h : a ≤ l ∧ l < b
  · rw [if_pos (by omega), if_pos h]
  · rw [if_neg (by omega), if_neg h]

theorem childIds_map_false (labelRoot : Bool) (baseLine id : Nat) (depth : Int) :
    ∀ (cs : List Hast) (st : TrackArrays) (cl : Nat),
      (childIds labelRoot baseLine id depth cs st cl false).1.map = st.map := by
  intro cs
  induction cs with
  | nil => intro st cl; rfl
  | cons c rest ih =>
    intro st cl
    unfold childIds
    split
    · exact ih _ _
    · exact ih _ _

theorem childIds_cl (labelRoot : Bool) (baseLine id : Nat) (depth : Int) :
    ∀ (cs : List Hast) (st : TrackArrays) (cl : Nat) (fc : Bool),
      (childIds labelRoot baseLine id depth cs st cl fc).2.1 =
        ((cs.filter (eligibleChild labelRoot)).map fun c => (childRange baseLine c).2 + 1).getLastD cl := by
  intro cs
  induction cs with
  | nil => intro st cl fc; rfl
  | cons c rest ih =>
    intro st cl fc
    unfold childIds
    split
    · rename_i helig
      rw [List.filter_cons_of_pos helig]
      simp only [List.map_cons, List.getLastD_cons]
      exact ih _ _ _
    · rename_i helig
      rw [List.filter_cons_of_neg (by simpa using helig)]
      exact ih _ _ _

theorem childIds_map_true (labelRoot : Bool) (baseLine id : Nat) (depth : Int) :
    ∀ (cs : List Hast) (st : TrackArrays) (cl : Nat),
      (childIds labelRoot baseLine id depth cs st cl true).1.map =
        (match (cs.filter (eligibleChild labelRoot)).head? with
          | some c => fillMapLt id cl (childRange baseLine c).1 st.map
          | none => st.map) := by
  intro cs
  induction cs with
  | nil => intro st cl; rfl
  | cons c rest ih =>
    intro st cl
    unfold childIds
    split
    · rename_i helig
      rw [List.filter_cons_of_pos helig]
      simp only [List.head?_cons]
      exact childIds_map_false labelRoot baseLine id depth rest _ _
    · rename_i helig
      rw [List.filter_cons_of_neg (by simpa using helig)]
      exact ih _ _

/-- C4 counterexample: after `transformNote` visits the wrapper (id 2,
range 1–5) and its tracked children (id 3 on line 1, id 4 on line 3), line 2
lies inside the visited wrapper's range and inside no child's range, yet the
line→id map leaves it unassigned — the code fills the gap before the first
eligible child and after the last one, but not the gap between two
consecutive eligible children, so a visited element's range can contain
lines mapping to no id. -/
theorem lineMap_gap_counterexample :
    (transformNote true 0 0 gapSt gapTree).1.map.getD 2 none = none ∧
    (transformNote true 0 0 gapSt gapTree).1.mapStartLine.getD 2 0 = 1 ∧
    (transformNote true 0 0 gapSt gapTree).1.mapEndLine.getD 2 0 = 5 ∧
    (transformNote true 0 0 gapSt gapTree).1.mapFather.getD 3 0 = 2 ∧
    (transformNote true 0 0 gapSt gapTree).1.mapStartLine.getD 3 0 = 1 ∧
    (transformNote true 0 0 gapSt gapTree).1.mapEndLine.getD 3 0 = 1 ∧
    (transformNote true 0 0 gapSt gapTree).1.mapFather.getD 4 0 = 2 ∧
    (transformNote true 0 0 gapSt gapTree).1.mapStartLine.getD 4 0 = 3 ∧
    (transformNote true 0 0 gapSt gapTree).1.mapEndLine.getD 4 0 = 3 ∧
    (transformNote true 0 0 gapSt gapTree).1.map.getD 1 none = some 3 ∧
    (transformNote true 0 0 gapSt gapTree).1.map.getD 3 none = some 4 ∧
    (transformNote true 0 0 gapSt gapTree).1.map.getD 4 none = some 2 ∧
    (transformNote true 0 0 gapSt gapTree).1.map.getD 5 none = some 2 := by
  decide

/-- C4 amended: during an element's own visit step (the child loop of
`childIds` followed by the trailing fill), the element's id is written to
the line→id map exactly on the lines from the element's start up to (but
excluding) the first eligible child's start, and from just past the last
eligible child's end up to the element's end; every other line keeps its
previous entry, so each line maps to at most one id, but gaps between
consecutive eligible children are left unassigned. -/
theorem lineMap_own_assignment (labelRoot : Bool) (baseLine id : Nat) (depth : Int)
    (cs : List Hast) (st : TrackArrays) (startLine endLine : Nat)
    (hne : cs.filter (eligibleChild labelRoot) ≠ []) :
    ∀ l : Nat,
      (fillMapLt id (childIds labelRoot baseLine id depth cs st startLine true).2.1
          (endLine + 1)
          (childIds labelRoot baseLine id depth cs st startLine true).1.map).getD l none =
        if (startLine ≤ l ∧
              l < (childRange baseLine ((cs.filter (eligibleChild labelRoot)).head hne)).1) ∨
            ((childRange baseLine ((cs.filter (eligibleChild labelRoot)).getLast hne)).2 + 1 ≤ l ∧
              l ≤ endLine)
          then some id else st.map.getD l none := by
  intro l
  rw [fillMapLt_getD, childIds_map_true, childIds_cl]
  rw [List.head?_eq_head hne]
  have hlast : ((cs.filter (eligibleChild labelRoot)).map
        fun c => (childRange baseLine c).2 + 1).getLastD startLine =
      (childRange baseLine ((cs.filter (eligibleChild labelRoot)).getLast hne)).2 + 1 := by
    rw [List.getLastD_eq_getLast?, List.getLast?_map, List.getLast?_eq_getLast _ hne]
    rfl
  rw [hlast]
  simp only []
  rw [fillMapLt_getD]
  by_cases h1 : (childRange baseLine ((cs.filter (eligibleChild labelRoot)).getLast hne)).2 + 1 ≤ l ∧
      l < endLine + 1
  · rw [if_pos h1, if_pos (by omega)]
  · rw [if_neg h1]
    by_cases h2 : startLine ≤ l ∧
        l < (childRange baseLine ((cs.filter (eligibleChild labelRoot)).head hne)).1
    · rw [if_pos h2, if_pos (by omega)]
    · rw [if_neg h2, if_neg (by omega)]

theorem c4cs_ne : c4cs.filter (eligibleChild true) ≠ [] := by
  intro h
  have hlen : (c4cs.filter (eligibleChild true)).length = 2 := rfl
  rw [h] at hlen
  cases hlen

/-- Witness for the amended C4 claim: line 4 of the concrete two-children
node (range 1–5, children on lines 1 and 3) falls in the trailing fill and
receives the element's id 7. -/
theorem lineMap_own_assignment_witness :
    (fillMapLt 7 (childIds true 0 7 0 c4cs c4st 1 true).2.1 6
        (childIds true 0 7 0 c4cs c4st 1 true).1.map).getD 4 none =
      if (1 ≤ 4 ∧ 4 < (childRange 0 ((c4cs.filter (eligibleChild true)).head c4cs_ne)).1) ∨
          ((childRange 0 ((c4cs.filter (eligibleChild true)).getLast c4cs_ne)).2 + 1 ≤ 4 ∧
            4 ≤ 5)
        then some 7 else c4st.map.getD 4 none :=
  lineMap_own_assignment true 0 7 0 c4cs c4st 1 5 c4cs_ne 4

theorem countHtml_append (l1 l2 : List (String × Option (Nat × Nat × Nat × Nat))) :
    countHtml (l1 ++ l2) = countHtml l1 + countHtml l2 := by
  induction l1 with
  | nil => simp [countHtml]
  | cons x rest ih =>
    rcases x with ⟨k, p⟩
    rw [List.cons_append, countHtml, countHtml, ih]
    omega

theorem specRemap_append (lines columns trimNums mathNums : List Nat) (offset : Nat) :
    ∀ (l1 l2 : List (String × Option (Nat × Nat × Nat × Nat))) (b : Nat),
      specRemap lines columns trimNums mathNums offset b (l1 ++ l2) =
        specRemap lines columns trimNums mathNums offset b l1 ++
          specRemap lines columns trimNums mathNums offset (b + countHtml l1) l2 := by
  intro l1
  induction l1 with
  | nil => intro l2 b; simp [specRemap, countHtml]
  | cons x rest ih =>
    intro l2 b
    rcases x with ⟨k, p⟩
    cases p with
    | none =>
      have hC : countHtml ((k, (none : Option (Nat × Nat × Nat × Nat))) :: rest) =
          countHtml rest := by
        rw [countHtml]
        simp
      rw [List.cons_append, specRemap, ih, specRemap, List.cons_append, hC]
    | some q =>
      rcases q with ⟨sl, so, el, eo⟩
      have hC : countHtml ((k, some (sl, so, el, eo)) :: rest) =
          (if k = "html" then 1 else 0) + countHtml rest := by
        rw [countHtml]
        by_cases hk : k = "html" <;> simp [hk]
      have harith : b + (if k = "html" then 1 else 0) + countHtml rest =
          b + ((if k = "html" then 1 else 0) + countHtml rest) := by omega
      rw [List.cons_append, specRemap, ih, specRemap, List.cons_append, hC, harith]

theorem traverse_spec_aux (lines columns trimNums mathNums : List Nat) (offset : Nat) :
    ∀ N : Nat,
      (∀ t : Mdast, sizeOf t ≤ N → ∀ b : Nat,
        flatO (traverse lines columns trimNums mathNums offset b t).2 =
          specRemap lines columns trimNums mathNums offset b (flatM t) ∧
        (traverse lines columns trimNums mathNums offset b t).1 = b + countHtml (flatM t)) ∧
      (∀ l : List Mdast, sizeOf l ≤ N → ∀ b : Nat,
        flatOList (traverseList lines columns trimNums mathNums offset b l).2 =
          specRemap lines columns trimNums mathNums offset b (flatMList l) ∧
        (traverseList lines columns trimNums mathNums offset b l).1 =
          b + countHtml (flatMList l)) := by
  intro N
  induction N with
  | zero =>
    constructor
    · intro t ht
      exfalso
      cases t
      simp at ht
    · intro l hl
      exfalso
      cases l <;> simp at hl
  | succ n ih =>
    obtain ⟨ihT, ihL⟩ := ih
    constructor
    · intro t ht b
      rcases t with ⟨k, p, cs⟩
      have hcs : sizeOf cs ≤ n := by
        simp [Mdast.node.sizeOf_spec] at ht
        omega
      cases p with
      | none =>
        rcases hTL : traverseList lines columns trimNums mathNums offset b cs with ⟨b2, cs2⟩
        have hQ := ihL cs hcs b
        rw [hTL] at hQ
        dsimp only at hQ
        simp only [traverse, flatM, flatO, specRemap, countHtml]
        rw [hTL]
        dsimp only
        refine ⟨?_, ?_⟩
        · rw [hQ.1]
        · rw [hQ.2]
          simp
      | some q =>
        rcases q with ⟨sl, so, el, eo⟩
        by_cases hk : k = "html"
        · subst hk
          rcases hTL : traverseList lines columns trimNums mathNums offset (b + 1) cs with
            ⟨b2, cs2⟩
          have hQ := ihL cs hcs (b + 1)
          rw [hTL] at hQ
          dsimp only at hQ
          simp only [traverse, flatM, flatO, specRemap, countHtml]
          simp only [reduceIte]
          rw [hTL]
          dsimp only
          refine ⟨?_, ?_⟩
          · rw [hQ.1]
          · rw [hQ.2]
            simp
            all_goals omega
        · rcases hTL : traverseList lines columns trimNums mathNums offset b cs with ⟨b2, cs2⟩
          have hQ := ihL cs hcs b
          rw [hTL] at hQ
          dsimp only at hQ
          simp only [traverse, flatM, flatO, specRemap, countHtml]
          simp only [if_neg hk]
          rw [hTL]
          dsimp only
          refine ⟨?_, ?_⟩
          · rw [hQ.1]
            simp
          · rw [hQ.2]
            simp [hk]
    · intro l hl b
      cases l with
      | nil => exact ⟨rfl, by simp [traverseList, flatMList, countHtml, specRemap]⟩
      | cons c cs =>
        have hc : sizeOf c ≤ n := by
          simp [List.cons.sizeOf_spec] at hl
          omega
        have hcs : sizeOf cs ≤ n := by
          simp [List.cons.sizeOf_spec] at hl
          omega
        rcases hT : traverse lines columns trimNums mathNums offset b c with ⟨b1, c1⟩
        have hP := ihT c hc b
        rw [hT] at hP
        dsimp only at hP
        rcases hTL : traverseList lines columns trimNums mathNums offset b1 cs with ⟨b2, cs2⟩
        have hQ := ihL cs hcs b1
        rw [hTL] at hQ
        dsimp only at hQ
        simp only [traverseList, flatMList, flatOList]
        rw [hT]
        dsimp only
        rw [hTL]
        dsimp only
        rw [specRemap_append, countHtml_append]
        refine ⟨?_, ?_⟩
        · rw [hP.1, hQ.1, hP.2]
        · rw [hQ.2, hP.2]
          omega

/-- C6: `parseNativeMarkdown`'s `traverse` remaps every delegated node's
position (taken in pre-order, with `b` box placeholders already substituted
before the run) by exactly the claimed corrections: subtract 3 lines and 3
offset units per `$$` reformatting occurrence recorded up to the node's
line, add back the accumulated per-line leading-space trim, add the
caller-supplied origin offset, subtract 11 characters per prior box-marker
placeholder, and add a fixed 3-character end adjustment when the node
itself is the substituted placeholder (`specRemap` states those corrections
record by record); the threaded `boxNum` comes out as `b` plus the number of
position-carrying placeholder nodes in the tree. -/
theorem traverse_position_formula (lines columns trimNums mathNums : List Nat)
    (offset : Nat) (b : Nat) (t : Mdast) :
    flatO (traverse lines columns trimNums mathNums offset b t).2 =
      specRemap lines columns trimNums mathNums offset b (flatM t) ∧
    (traverse lines columns trimNums mathNums offset b t).1 = b + countHtml (flatM t) :=
  (traverse_spec_aux lines columns trimNums mathNums offset (sizeOf t)).1 t (Nat.le_refl _) b

theorem runProcessQueue_inv (s : QState) (h : QInv s) : QInv (runProcessQueue s) := by
  obtain ⟨h1, h2, h3⟩ := h
  unfold runProcessQueue
  split
  · exact ⟨h1, h2, h3⟩
  · rename_i hnp
    split
    · exact ⟨h1, h2, h3⟩
    · rename_i m rest hq
      have hinf : s.inflight = [] := by
        by_contra hne
        exact hnp (h3.mpr hne)
      refine ⟨by simp [hinf], ?_, by simp [hinf]⟩
      show s.started ++ [m] ++ rest = s.arrived
      rw [List.append_assoc]
      simp only [List.singleton_append]
      rw [← hq, h2]

theorem qstep_inv {s s' : QState} (hs : QInv s) (st : QStep s s') : QInv s' := by
  cases st with
  | enqueue m =>
    apply runProcessQueue_inv
    obtain ⟨h1, h2, h3⟩ := hs
    refine ⟨h1, ?_, h3⟩
    show s.started ++ (s.queue ++ [m]) = s.arrived ++ [m]
    rw [← List.append_assoc, h2]
  | finish hne =>
    apply runProcessQueue_inv
    obtain ⟨h1, h2, h3⟩ := hs
    have htail : s.inflight.tail = [] := by
      cases hl : s.inflight with
      | nil => rfl
      | cons a l =>
        rw [hl] at h1
        simp only [List.length_cons] at h1
        have hl0 : l = [] := List.length_eq_zero.mp (by omega)
        simp [hl0]
    refine ⟨?_, h2, ?_⟩
    · show s.inflight.tail.length ≤ 1
      simp [htail]
    · show (false = true ↔ s.inflight.tail ≠ [])
      simp [htail]

theorem queue_reach_inv (s : QState) (h : QReach s) : QInv s := by
  induction h with
  | init => exact ⟨by simp [qInit], by simp [qInit], by simp [qInit]⟩
  | step _ hst ih => exact qstep_inv ih hst

/-- C8: in every reachable state of the edit-queue controller, at most one
`handleTextChange` is in flight over the shared node-identity arrays, and
the messages started so far followed by the still-queued ones are exactly
the arrived messages in arrival order — edits are processed strictly one at
a time, FIFO. -/
theorem queue_serialization (s : QState) (h : QReach s) :
    s.inflight.length ≤ 1 ∧ s.started ++ s.queue = s.arrived :=
  ⟨(queue_reach_inv s h).1, (queue_reach_inv s h).2.1⟩

/-- Witness for C8: the state reached from the initial state by one enqueue
satisfies the serialization property. -/
theorem queue_serialization_witness :
    (runProcessQueue
        { qInit with queue := qInit.queue ++ [0], arrived := qInit.arrived ++ [0] }).inflight.length ≤ 1 ∧
      (runProcessQueue
          { qInit with queue := qInit.queue ++ [0], arrived := qInit.arrived ++ [0] }).started ++
        (runProcessQueue
            { qInit with queue := qInit.queue ++ [0], arrived := qInit.arrived ++ [0] }).queue =
        (runProcessQueue
            { qInit with queue := qInit.queue ++ [0], arrived := qInit.arrived ++ [0] }).arrived :=
  queue_serialization _ (QReach.step QReach.init (QStep.enqueue qInit 0))

/-- Witness for C2: both construct parsers succeed at index 0 of the
concrete inputs, so by `blockColumnGate` the column there is
`0 * 4 + 1`. -/
theorem blockColumnGate_witness :
    wBlockNorm.2.2.getD 0 0 = 0 * 4 + 1 ∧ wInlineNorm.2.2.getD 0 0 = 0 * 4 + 1 :=
  ⟨blockColumnGate.1 wBlockNorm.1 wBlockNorm.2.1 wBlockNorm.2.2 0 0
      (8, .block "theorem-block-mdast" none false ⟨1, 1, 0⟩ ⟨1, 9, 8⟩
        [.markdown " x ".data 0 4 (some "block-title-content")]) rfl,
   blockColumnGate.2.1 wInlineNorm.1 wInlineNorm.2.1 wInlineNorm.2.2 0 0
      (11, .inlineBlock "tip-inline-block-mdast" none false ⟨1, 1, 0⟩ ⟨2, 1, 11⟩
        [.markdown " hello".data 0 4 (some "inline-block-content")]) rfl⟩

/-- Witness for C9: applying `abbr_expansion` to the concrete `@thm x `
block-open match. -/
theorem abbr_expansion_witness :
    (NoteNode.block "theorem-block-mdast" none false ⟨1, 1, 0⟩ ⟨1, 9, 8⟩
        [.markdown " x ".data 0 4 (some "block-title-content")]).className =
      resolveAbbr (rawBlockLabel wBlockNorm.1 0) ++ "-block-mdast" ++
        (if wBlockNorm.1[0]? = some '+' then " block-link" else "") :=
  abbr_expansion.1 wBlockNorm.1 wBlockNorm.2.1 wBlockNorm.2.2 0 0 8
    (NoteNode.block "theorem-block-mdast" none false ⟨1, 1, 0⟩ ⟨1, 9, 8⟩
      [.markdown " x ".data 0 4 (some "block-title-content")]) rfl

/-- C3: for the three root-level siblings (lines 1–5, 6–10, 11–15 under
parent 0) and an edit touching lines 4–12, the boundary resolution yields
`last = 1`, `next = 3`, `findLCA` returns x = 1, y = 3 with LCA parent 0,
the re-parsed line range is [1, 15], and the replaced sibling range [x, y]
contains the ids 1, 2 and 3. -/
theorem findLCA_sibling_scenario :
    resolveLast (updateMapLast c3map) (updateMapNext c3map) 4 = some 1 ∧
    resolveNext (updateMapLast c3map) (updateMapNext c3map) 12 = some 3 ∧
    findLCA c3Depth c3Father 1 3 = (1, 3, 0) ∧
    min (c3Start.getD 1 0) 4 = 1 ∧
    max (c3End.getD 3 0) 12 = 15 ∧
    ((findLCA c3Depth c3Father 1 3).1 ≤ 1 ∧ 1 ≤ (findLCA c3Depth c3Father 1 3).2.1) ∧
    ((findLCA c3Depth c3Father 1 3).1 ≤ 2 ∧ 2 ≤ (findLCA c3Depth c3Father 1 3).2.1) ∧
    ((findLCA c3Depth c3Father 1 3).1 ≤ 3 ∧ 3 ≤ (findLCA c3Depth c3Father 1 3).2.1) := by
  decide

end Notesaw
